import Mathlib

/-
Verification of the graph-toolkit Graph engine.

The C++ class `Graph` (src/src/Graph.cpp, with an earlier revision in
src/Graph.cpp) stores a dense adjacency matrix `adjacencyMatrix` of
`numVertices x numVertices` ints together with a `isWeighted` flag.  We embed
the data model and each algorithm as executable Lean definitions and prove the
specified properties about them.

Conventions of the embedding:
 - `std::vector<std::vector<int>>` becomes `List (List Int)`; a cell read
   `adjacencyMatrix[u][v]` becomes `edgeVal g u v` (out-of-range reads default
   to 0, which never happens on the paths exercised by valid calls).
 - `std::vector<bool> visited` becomes a `Finset Nat` (membership = the flag).
 - a `std::stack<int>` becomes a `List Nat` whose head is the top; pushing the
   neighbor list in descending index order therefore prepends the ascending
   neighbor list.  A `std::queue<int>` becomes a `List Nat` whose head is the
   front; pushing appends on the right.
 - loops are embedded with an explicit fuel parameter together with lemmas
   showing the chosen fuel is sufficient (the C++ loops terminate for the same
   counting reasons).
 - C++ exceptions become explicit error values: `std::out_of_range` is
   `GErr.indexError`, `std::invalid_argument` is `GErr.invalidArgument`,
   `std::runtime_error` is `GErr.preconditionError`.
-/

/-- Error kinds of the engine (see the error taxonomy of the spec). -/
inductive GErr where
  | indexError : GErr
  | invalidArgument : GErr
  | preconditionError : GErr
deriving DecidableEq, Repr

/-- The Graph data model: vertex count, weighted flag, dense edge matrix. -/
structure Graph where
  numVertices : Nat
  isWeighted : Bool
  adjacencyMatrix : List (List Int)
deriving DecidableEq, Repr

/-- `Graph(vertices, weighted)`: an n x n all-zero matrix. -/
def mkGraph (n : Nat) (w : Bool) : Graph :=
  ⟨n, w, List.replicate n (List.replicate n 0)⟩

/-- Cell read `adjacencyMatrix[u][v]`. -/
def edgeVal (g : Graph) (u v : Nat) : Int :=
  (g.adjacencyMatrix.getD u []).getD v 0

/-- `validVertex(vertex)`: `vertex < numVertices`. -/
def validVertex (g : Graph) (v : Nat) : Bool :=
  decide (v < g.numVertices)

/-- `getNeighbors(vertex)`: ascending list of all `j` with a nonzero cell. -/
def getNeighbors (g : Graph) (u : Nat) : List Nat :=
  (List.range g.numVertices).filter (fun j => edgeVal g u j != 0)

/-- The edge relation of the stored graph, restricted to valid vertices. -/
def adjacent (g : Graph) (u v : Nat) : Prop :=
  u < g.numVertices ∧ v < g.numVertices ∧ edgeVal g u v ≠ 0

/-- Reachability along directed edges (reflexive-transitive closure). -/
def Reach (g : Graph) (s v : Nat) : Prop :=
  Relation.ReflTransGen (adjacent g) s v

instance (g : Graph) (u v : Nat) : Decidable (adjacent g u v) := by
  unfold adjacent; infer_instance

/-! ### Depth-first traversal, current revision (src/src/Graph.cpp)

`depthFirstTraversalHelper`: stack seeded with the start vertex; a vertex is
marked visited when it is popped and accepted; its neighbors are then pushed
in descending index order (so the ascending neighbor list is prepended). -/

def dfsLoop (g : Graph) : Nat → Finset Nat → List Nat → List Nat
  | 0, _, _ => []
  | _ + 1, _, [] => []
  | fuel + 1, visited, v :: st =>
      if v ∈ visited then
        dfsLoop g fuel visited st
      else
        v :: dfsLoop g fuel (insert v visited)
          (((getNeighbors g v).filter (fun w => w ∉ insert v visited)) ++ st)

/-- Fuel that always suffices for `dfsLoop` started on one vertex. -/
def dfsFuel (g : Graph) : Nat :=
  g.numVertices * (g.numVertices + 1) + 1

/-- `depthFirstTraversalHelper(startVertex, visited)` with fresh flags. -/
def dfsList (g : Graph) (s : Nat) : List Nat :=
  dfsLoop g (dfsFuel g) ∅ [s]

/-- `depthFirstTraversal(startVertex)`: validates the start vertex. -/
def depthFirstTraversal (g : Graph) (s : Nat) : Except GErr (List Nat) :=
  if validVertex g s then .ok (dfsList g s) else .error .indexError

/-! ### A computable reachable set

`reachSet g s` iterates one-step neighbor expansion `numVertices` times
starting from `{s}`; it is proved to coincide with `Reach g s`.  It plays the
role of "the component reachable from `s`" in the statements below. -/

def reachStep (g : Graph) (S : Finset Nat) : Finset Nat :=
  S ∪ S.biUnion (fun u => (getNeighbors g u).toFinset)

def reachSet (g : Graph) (s : Nat) : Finset Nat :=
  (reachStep g)^[g.numVertices] {s}

/-! ### Breadth-first traversal

`breadthFirstTraversalHelper`: queue discipline, a vertex is marked visited at
enqueue time, neighbors enqueued in ascending index order. -/

def bfsLoop (g : Graph) : Nat → Finset Nat → List Nat → List Nat
  | 0, _, _ => []
  | _ + 1, _, [] => []
  | fuel + 1, visited, v :: q =>
      v :: bfsLoop g fuel
        (visited ∪ ((getNeighbors g v).filter (fun w => w ∉ visited)).toFinset)
        (q ++ (getNeighbors g v).filter (fun w => w ∉ visited))

/-- Fuel that always suffices for `bfsLoop` started on one vertex. -/
def bfsFuel (g : Graph) : Nat :=
  2 * g.numVertices + 1

/-- `breadthFirstTraversalHelper` with flags and queue seeded at `s`. -/
def bfsList (g : Graph) (s : Nat) : List Nat :=
  bfsLoop g (bfsFuel g) {s} [s]

/-- `breadthFirstTraversal(startVertex)`: validates the start vertex. -/
def breadthFirstTraversal (g : Graph) (s : Nat) : Except GErr (List Nat) :=
  if validVertex g s then .ok (bfsList g s) else .error .indexError

/-! ### Depth-first traversal, earlier revision (src/Graph.cpp)

This revision marks a vertex visited at push time and emits every popped
vertex unconditionally. -/

def dfsOldLoop (g : Graph) : Nat → Finset Nat → List Nat → List Nat
  | 0, _, _ => []
  | _ + 1, _, [] => []
  | fuel + 1, visited, v :: st =>
      v :: dfsOldLoop g fuel
        (visited ∪ ((getNeighbors g v).filter (fun w => w ∉ visited)).toFinset)
        ((getNeighbors g v).filter (fun w => w ∉ visited) ++ st)

/-- `depthFirstTraversalHelper` of the earlier revision, seeded at `s`. -/
def dfsOldList (g : Graph) (s : Nat) : List Nat :=
  dfsOldLoop g (bfsFuel g) {s} [s]

/-- The list of neighbors of `x` that are unvisited at the moment `x` is
accepted, when the emitted prefix before `x` is `p`. -/
def unvisitedNeighbors (g : Graph) (x : Nat) (p : List Nat) : List Nat :=
  (getNeighbors g x).filter (fun z => decide (z ∉ p ∧ z ≠ x))

/-! ### Connectivity predicates -/

/-- `isConnected()`: some vertex's DFS reaches every vertex. -/
def isConnected (g : Graph) : Bool :=
  (List.range g.numVertices).any
    (fun i => (dfsList g i).length == g.numVertices)

/-- `isStronglyConnected()`: every vertex's DFS reaches every vertex. -/
def isStronglyConnected (g : Graph) : Bool :=
  (List.range g.numVertices).all
    (fun i => !(decide ((dfsList g i).length < g.numVertices)))

/-- `areVerticesStronglyConnected(u, v)`: validates both indices, then checks
mutual reachability by two DFS runs. -/
def areVerticesStronglyConnected (g : Graph) (u v : Nat) : Except GErr Bool :=
  if validVertex g u && validVertex g v then
    .ok ((dfsList g u).contains v && (dfsList g v).contains u)
  else .error .indexError

/-! ### Cycle detection (Kahn's topological elimination) -/

/-- The set of in-neighbors of `v` not yet popped (popped list `P`). -/
def pendingInDeg (g : Graph) (P : List Nat) (v : Nat) : Finset Nat :=
  (Finset.range g.numVertices).filter (fun u => edgeVal g u v ≠ 0 ∧ u ∉ P)

/-- `hasCycle`: the initial in-degree of each vertex (count of nonzero cells
in its column). -/
def initInDeg (g : Graph) (v : Nat) : Int :=
  (((Finset.range g.numVertices).filter (fun u => edgeVal g u v ≠ 0)).card : Int)

/-- The elimination loop of `hasCycle`: pop the queue front, decrement the
in-degree of each of its out-neighbors, enqueue those that reach zero.  The
returned list is the sequence of popped vertices (the code only keeps its
length in the `visited` counter). -/
def kahnLoop (g : Graph) : Nat → (Nat → Int) → List Nat → List Nat
  | 0, _, _ => []
  | _ + 1, _, [] => []
  | fuel + 1, deg, v :: q =>
      v :: kahnLoop g fuel
        (fun w => if w < g.numVertices ∧ edgeVal g v w ≠ 0 then deg w - 1
          else deg w)
        (q ++ (getNeighbors g v).filter (fun w => deg w - 1 == 0))

/-- The seed queue: all vertices of zero initial in-degree, in ascending
order. -/
def kahnSeeds (g : Graph) : List Nat :=
  (List.range g.numVertices).filter (fun u => initInDeg g u == 0)

/-- The full elimination run. -/
def kahnRun (g : Graph) : List Nat :=
  kahnLoop g g.numVertices (initInDeg g) (kahnSeeds g)

/-- `hasCycle()`: true iff the number of eliminated vertices differs from the
vertex count. -/
def hasCycle (g : Graph) : Bool :=
  (kahnRun g).length != g.numVertices

/-- A total topological order of the vertex set, consistent with all edges. -/
def IsTopoOrder (g : Graph) (ord : List Nat) : Prop :=
  ord.Nodup ∧ (∀ v, v ∈ ord ↔ v < g.numVertices) ∧
    ∀ u v, adjacent g u v → ord.indexOf u < ord.indexOf v

/-! ### Hamiltonian cycle search -/

/-- `isComplete()`: every ordered pair of distinct vertices is joined. -/
def isComplete (g : Graph) : Bool :=
  (List.range g.numVertices).all (fun row =>
    (List.range g.numVertices).all (fun col =>
      row == col || edgeVal g row col != 0))

/-- `findHamiltonianCyclesHelper`: depth-first backtracking over unvisited
neighbors; accepts when the path covers all vertices and the last vertex is
adjacent back to the start.  Recursion depth is bounded by the number of
vertices still to add, so fuel `numVertices` always suffices at the call
sites. -/
def findHamiltonianCyclesHelper (g : Graph) :
    Nat → Nat → Nat → List Nat → Finset Nat → List (List Nat)
  | 0, _, _, _, _ => []
  | fuel + 1, startVertex, currentVertex, path, visited =>
      if path.length = g.numVertices then
        if edgeVal g currentVertex startVertex ≠ 0 then [path ++ [startVertex]]
        else []
      else
        (getNeighbors g currentVertex).flatMap (fun nb =>
          if nb ∈ visited then []
          else findHamiltonianCyclesHelper g fuel startVertex nb
            (path ++ [nb]) (insert nb visited))

/-- `findHamiltonianCycles()`: the one-vertex special cases, the two cheap
pruning checks, then the exhaustive search from every start vertex. -/
def findHamiltonianCycles (g : Graph) : List (List Nat) :=
  if g.numVertices = 1 ∧ edgeVal g 0 0 ≠ 0 then [[0, 0]]
  else if g.numVertices = 1 then []
  else if isConnected g = false then []
  else if hasCycle g = false then []
  else
    (List.range g.numVertices).flatMap (fun startVertex =>
      (getNeighbors g startVertex).flatMap (fun nb =>
        if nb ∈ ({startVertex} : Finset Nat) then []
        else findHamiltonianCyclesHelper g g.numVertices startVertex nb
          [startVertex, nb] (insert nb {startVertex})))

/-- `hasHamiltonianCycle()`: the full enumeration is non-empty. -/
def hasHamiltonianCycle (g : Graph) : Bool :=
  !(findHamiltonianCycles g).isEmpty

/-! ### Store mutators (with the state at the moment an error is raised) -/

/-- Result of a mutating operation: either the new graph, or the error kind
together with the state of the graph at the moment the error was raised. -/
inductive MRes where
  | ok (g : Graph)
  | err (e : GErr) (state : Graph)
deriving DecidableEq, Repr

/-- Write one cell of the matrix. -/
def setEdge (g : Graph) (a b : Nat) (w : Int) : Graph :=
  ⟨g.numVertices, g.isWeighted,
    g.adjacencyMatrix.set a ((g.adjacencyMatrix.getD a []).set b w)⟩

/-- `addEdge(from, to)` (unweighted form): validates indices, writes 1. -/
def addEdge (g : Graph) (a b : Nat) : MRes :=
  if a < g.numVertices ∧ b < g.numVertices then .ok (setEdge g a b 1)
  else .err .indexError g

/-- `addEdge(from, to, weight)`: validates indices, then positivity. -/
def addEdgeWeighted (g : Graph) (a b : Nat) (w : Int) : MRes :=
  if ¬(a < g.numVertices ∧ b < g.numVertices) then .err .indexError g
  else if w ≤ 0 then .err .invalidArgument g
  else .ok (setEdge g a b w)

/-- `addUndirectedEdge(from, to, weight)`: both directions in sequence. -/
def addUndirectedEdge (g : Graph) (a b : Nat) (w : Int) : MRes :=
  match addEdgeWeighted g a b w with
  | .ok g₁ => addEdgeWeighted g₁ b a w
  | .err e st => .err e st

/-- `removeVertex(vertex)`: validates, erases row and column `vertex`. -/
def removeVertex (g : Graph) (v : Nat) : MRes :=
  if v < g.numVertices then
    .ok ⟨g.numVertices - 1, g.isWeighted,
      (g.adjacencyMatrix.eraseIdx v).map (fun row => row.eraseIdx v)⟩
  else .err .indexError g

/-- `removeEdge(from, to)`: validates indices, zeroes the cell. -/
def removeEdge (g : Graph) (a b : Nat) : MRes :=
  if a < g.numVertices ∧ b < g.numVertices then .ok (setEdge g a b 0)
  else .err .indexError g

/-! ### Minimum spanning tree (Prim) -/

/-- `INT_MAX`, the initial key value and initial best distance. -/
def intMax : Int := 2147483647

/-- The selection scan of Prim: minimum key among vertices not in the tree,
strict comparison, ascending scan; `-1` when no finite key is found. -/
def primSelect (g : Graph) (inMST : Finset Nat) (key : Nat → Int) : Int × Int :=
  (List.range g.numVertices).foldl
    (fun acc v => if v ∉ inMST ∧ key v < acc.1 then (key v, (v : Int)) else acc)
    (intMax, -1)

/-- Result of `minimumSpanningTree()`: a graph, a raised error, or the
out-of-bounds write `inMST[-1]` that the C++ performs when the selection
fails (undefined behavior). -/
inductive PrimRes where
  | ok (g : Graph)
  | err (e : GErr)
  | outOfBounds
deriving DecidableEq, Repr

/-- The main loop of Prim: `numVertices` rounds of select / mark / record the
parent edge / relax keys. -/
def primLoop (g : Graph) :
    Nat → Graph → Finset Nat → (Nat → Int) → (Nat → Int) → PrimRes
  | 0, mst, _, _, _ => .ok mst
  | count + 1, mst, inMST, key, parent =>
      let sel := primSelect g inMST key
      if sel.2 < 0 then .outOfBounds
      else
        let u := sel.2.toNat
        let inMST' := insert u inMST
        let next : MRes :=
          if parent u ≠ -1 then
            addUndirectedEdge mst (parent u).toNat u
              (edgeVal g (parent u).toNat u)
          else .ok mst
        match next with
        | .err e _ => .err e
        | .ok mst' =>
            primLoop g count mst' inMST'
              (fun v => if edgeVal g u v > 0 ∧ v ∉ inMST' ∧ edgeVal g u v < key v
                then edgeVal g u v else key v)
              (fun v => if edgeVal g u v > 0 ∧ v ∉ inMST' ∧ edgeVal g u v < key v
                then (u : Int) else parent v)

/-- `minimumSpanningTree()`: zero-vertex early return, the connectivity and
weighted-flag precondition checks, then Prim from vertex 0. -/
def minimumSpanningTree (g : Graph) : PrimRes :=
  if g.numVertices = 0 then .ok (mkGraph 0 false)
  else if isConnected g = false then .err .preconditionError
  else if g.isWeighted = false then .err .preconditionError
  else primLoop g g.numVertices (mkGraph g.numVertices true) ∅
    (fun v => if v = 0 then 0 else intMax) (fun _ => -1)

/-! ### Traveling salesman (exact, permutation search)

The C++ enumerates all permutations of `{1..V-1}` with `next_permutation`
starting from the ascending order, i.e. every permutation exactly once in
lexicographic order; `lexPermsAux` generates the same enumeration. -/

def lexPermsAux : Nat → List Nat → List (List Nat)
  | 0, _ => [[]]
  | n + 1, l => l.flatMap (fun x =>
      (lexPermsAux n (l.erase x)).map (fun p => x :: p))

/-- All permutations of `l` in lexicographic order (for sorted `l`). -/
def lexPerms (l : List Nat) : List (List Nat) :=
  lexPermsAux l.length l

/-- The candidate list `vertices = [1, ..., V-1]` and its permutations. -/
def tspCandidates (g : Graph) : List (List Nat) :=
  lexPerms (List.range' 1 (g.numVertices - 1))

/-- The closed tour built from a permutation: `0 → permutation → 0`. -/
def tourOf (p : List Nat) : List Nat := 0 :: p ++ [0]

/-- Sum of the matrix cells along consecutive pairs of a path. -/
def pathCost (g : Graph) (path : List Nat) : Int :=
  (path.zip path.tail).foldl (fun acc e => acc + edgeVal g e.1 e.2) 0

/-- One step of the tour search: keep the better tour, strict comparison. -/
def tspStep (g : Graph) (acc : List Nat × Int) (p : List Nat) :
    List Nat × Int :=
  if pathCost g (tourOf p) < acc.2 then (tourOf p, pathCost g (tourOf p))
  else acc

/-- `travelingSalesman()`: completeness and size preconditions, the 2-vertex
special case, then the exhaustive lexicographic permutation search starting
from best distance `INT_MAX`. -/
def travelingSalesman (g : Graph) : Except GErr (List Nat × Int) :=
  if isComplete g = false then .error .invalidArgument
  else if g.numVertices < 2 then .error .invalidArgument
  else if g.numVertices = 2 then .ok ([0, 1, 0], edgeVal g 0 1 + edgeVal g 1 0)
  else .ok ((tspCandidates g).foldl (tspStep g) ([], intMax))

/-- Two's-complement wraparound to a 32-bit signed int, the effect of the
C++ `int` accumulator on each addition. -/
def wrap32 (x : Int) : Int :=
  (x + 2147483648) % 4294967296 - 2147483648

/-- The tour cost as the C++ `int` accumulator `currentDistance` computes it:
every addition wraps to 32 bits. -/
def pathCostI32 (g : Graph) (path : List Nat) : Int :=
  (path.zip path.tail).foldl (fun acc e => wrap32 (acc + edgeVal g e.1 e.2)) 0

instance {e a : Type} [DecidableEq e] [DecidableEq a] :
    DecidableEq (Except e a) := fun x y =>
  match x, y with
  | .ok u, .ok v =>
      if h : u = v then isTrue (by rw [h])
      else isFalse (by intro hc; cases hc; exact h rfl)
  | .ok _, .error _ => isFalse (by intro hc; cases hc)
  | .error _, .ok _ => isFalse (by intro hc; cases hc)
  | .error u, .error v =>
      if h : u = v then isTrue (by rw [h])
      else isFalse (by intro hc; cases hc; exact h rfl)

lemma mem_getNeighbors {g : Graph} {u v : Nat} :
    v ∈ getNeighbors g u ↔ v < g.numVertices ∧ edgeVal g u v ≠ 0 := by
  simp [getNeighbors, List.mem_filter, List.mem_range]

lemma adjacent_iff_mem_getNeighbors {g : Graph} {u v : Nat} :
    adjacent g u v ↔ u < g.numVertices ∧ v ∈ getNeighbors g u := by
  rw [mem_getNeighbors]; unfold adjacent; tauto

lemma getNeighbors_sorted (g : Graph) (u : Nat) :
    (getNeighbors g u).Pairwise (· < ·) :=
  (List.pairwise_lt_range g.numVertices).sublist (List.filter_sublist _)

lemma getNeighbors_length_le (g : Graph) (u : Nat) :
    (getNeighbors g u).length ≤ g.numVertices := by
  calc (getNeighbors g u).length ≤ (List.range g.numVertices).length :=
        (List.filter_sublist _).length_le
    _ = g.numVertices := List.length_range _

/-- Main invariant lemma for the current-revision DFS loop.  For any state
with visited set `V` and stack `st` (entries below `numVertices`) and enough
fuel, the emitted list is duplicate-free, fresh, absorbs the stack, is
reachable from the stack, and is closed under edges up to `V`. -/
lemma dfsLoop_spec (g : Graph) : ∀ (fuel : Nat) (V : Finset Nat) (st : List Nat),
    V ⊆ Finset.range g.numVertices →
    (∀ x ∈ st, x < g.numVertices) →
    st.length + (g.numVertices - V.card) * (g.numVertices + 1) ≤ fuel →
    (dfsLoop g fuel V st).Nodup ∧
    (∀ x ∈ dfsLoop g fuel V st, x < g.numVertices ∧ x ∉ V) ∧
    (∀ x ∈ st, x ∈ V ∨ x ∈ dfsLoop g fuel V st) ∧
    (∀ x ∈ dfsLoop g fuel V st, ∃ y ∈ st, Relation.ReflTransGen (adjacent g) y x) ∧
    (∀ u ∈ dfsLoop g fuel V st, ∀ w, adjacent g u w →
      w ∈ V ∨ w ∈ dfsLoop g fuel V st) := by
  intro fuel
  induction fuel with
  | zero =>
      intro V st hV hst hfuel
      cases st with
      | nil => simp [dfsLoop]
      | cons v t => simp at hfuel
  | succ f ih =>
      intro V st hV hst hfuel
      cases st with
      | nil => simp [dfsLoop]
      | cons v t =>
        have hvn : v < g.numVertices := hst v (List.mem_cons_self v t)
        by_cases hv : v ∈ V
        · have hst' : ∀ x ∈ t, x < g.numVertices :=
            fun x hx => hst x (List.mem_cons_of_mem v hx)
          have hfuel' :
              t.length + (g.numVertices - V.card) * (g.numVertices + 1) ≤ f := by
            simp only [List.length_cons] at hfuel; omega
          obtain ⟨h1, h2, h3, h4, h5⟩ := ih V t hV hst' hfuel'
          have heq : dfsLoop g (f + 1) V (v :: t) = dfsLoop g f V t := by
            simp [dfsLoop, hv]
          rw [heq]
          refine ⟨h1, h2, ?_, ?_, h5⟩
          · intro x hx
            rcases List.mem_cons.mp hx with rfl | hx'
            · exact Or.inl hv
            · exact h3 x hx'
          · intro x hx
            obtain ⟨y, hy, hr⟩ := h4 x hx
            exact ⟨y, List.mem_cons_of_mem v hy, hr⟩
        · -- accept v
          have hcard : V.card < g.numVertices := by
            have hsub : insert v V ⊆ Finset.range g.numVertices := by
              intro x hx
              rcases Finset.mem_insert.mp hx with rfl | hx'
              · exact Finset.mem_range.mpr hvn
              · exact hV hx'
            have := Finset.card_le_card hsub
            rw [Finset.card_insert_of_not_mem hv, Finset.card_range] at this
            omega
          have hUlen :
              ((getNeighbors g v).filter (fun w => w ∉ insert v V)).length
                ≤ g.numVertices := by
            calc ((getNeighbors g v).filter (fun w => w ∉ insert v V)).length
                ≤ (getNeighbors g v).length := (List.filter_sublist _).length_le
              _ ≤ g.numVertices := getNeighbors_length_le g v
          have hV' : insert v V ⊆ Finset.range g.numVertices := by
            intro x hx
            rcases Finset.mem_insert.mp hx with rfl | hx'
            · exact Finset.mem_range.mpr hvn
            · exact hV hx'
          have hst' : ∀ x ∈ ((getNeighbors g v).filter
              (fun w => w ∉ insert v V)) ++ t, x < g.numVertices := by
            intro x hx
            rcases List.mem_append.mp hx with hx' | hx'
            · exact (mem_getNeighbors.mp (List.mem_of_mem_filter hx')).1
            · exact hst x (List.mem_cons_of_mem v hx')
          have hfuel' : (((getNeighbors g v).filter
                (fun w => w ∉ insert v V)) ++ t).length
              + (g.numVertices - (insert v V).card) * (g.numVertices + 1) ≤ f := by
            rw [List.length_append, Finset.card_insert_of_not_mem hv]
            simp only [List.length_cons] at hfuel
            have hsplit : (g.numVertices - V.card) * (g.numVertices + 1)
                = (g.numVertices - (V.card + 1)) * (g.numVertices + 1)
                  + (g.numVertices + 1) := by
              rw [show g.numVertices - V.card
                  = (g.numVertices - (V.card + 1)) + 1 from by omega, add_mul,
                one_mul]
            omega
          obtain ⟨h1, h2, h3, h4, h5⟩ := ih (insert v V) _ hV' hst' hfuel'
          have heq : dfsLoop g (f + 1) V (v :: t)
              = v :: dfsLoop g f (insert v V)
                  (((getNeighbors g v).filter (fun w => w ∉ insert v V)) ++ t) := by
            simp [dfsLoop, hv]
          rw [heq]
          set r' := dfsLoop g f (insert v V)
            (((getNeighbors g v).filter (fun w => w ∉ insert v V)) ++ t) with hr'
          refine ⟨?_, ?_, ?_, ?_, ?_⟩
          · refine List.nodup_cons.mpr ⟨?_, h1⟩
            intro hmem
            exact (h2 v hmem).2 (Finset.mem_insert_self v V)
          · intro x hx
            rcases List.mem_cons.mp hx with rfl | hx'
            · exact ⟨hvn, hv⟩
            · obtain ⟨hxn, hxv⟩ := h2 x hx'
              exact ⟨hxn, fun hxV => hxv (Finset.mem_insert_of_mem hxV)⟩
          · intro x hx
            rcases List.mem_cons.mp hx with rfl | hx'
            · exact Or.inr (List.mem_cons_self _ _)
            · rcases h3 x (List.mem_append_right _ hx') with hxV | hxr
              · rcases Finset.mem_insert.mp hxV with rfl | hxV'
                · exact Or.inr (List.mem_cons_self _ _)
                · exact Or.inl hxV'
              · exact Or.inr (List.mem_cons_of_mem v hxr)
          · intro x hx
            rcases List.mem_cons.mp hx with rfl | hx'
            · exact ⟨x, List.mem_cons_self x t, Relation.ReflTransGen.refl⟩
            · obtain ⟨y, hy, hreach⟩ := h4 x hx'
              rcases List.mem_append.mp hy with hyU | hyt
              · have hadj : adjacent g v y := by
                  rw [adjacent_iff_mem_getNeighbors]
                  exact ⟨hvn, List.mem_of_mem_filter hyU⟩
                exact ⟨v, List.mem_cons_self v t,
                  Relation.ReflTransGen.head hadj hreach⟩
              · exact ⟨y, List.mem_cons_of_mem v hyt, hreach⟩
          · intro u hu w hadj
            rcases List.mem_cons.mp hu with rfl | hu'
            · by_cases hwV : w ∈ insert u V
              · rcases Finset.mem_insert.mp hwV with rfl | hwV'
                · exact Or.inr (List.mem_cons_self _ _)
                · exact Or.inl hwV'
              · have hwU : w ∈ (getNeighbors g u).filter
                    (fun z => z ∉ insert u V) := by
                  refine List.mem_filter.mpr ⟨?_, by simpa using hwV⟩
                  exact (adjacent_iff_mem_getNeighbors.mp hadj).2
                rcases h3 w (List.mem_append_left _ hwU) with hwV' | hwr
                · exact absurd hwV' hwV
                · exact Or.inr (List.mem_cons_of_mem u hwr)
            · rcases h5 u hu' w hadj with hwV | hwr
              · rcases Finset.mem_insert.mp hwV with rfl | hwV'
                · exact Or.inr (List.mem_cons_self _ _)
                · exact Or.inl hwV'
              · exact Or.inr (List.mem_cons_of_mem v hwr)

lemma dfsList_nodup {g : Graph} {s : Nat} (hs : s < g.numVertices) :
    (dfsList g s).Nodup := by
  have hfuel : [s].length + (g.numVertices - (∅ : Finset Nat).card)
      * (g.numVertices + 1) ≤ dfsFuel g := by
    simp [dfsFuel]; omega
  exact (dfsLoop_spec g (dfsFuel g) ∅ [s] (by simp)
    (by intro x hx; simp at hx; omega) hfuel).1

lemma mem_dfsList {g : Graph} {s : Nat} (hs : s < g.numVertices) :
    ∀ x, x ∈ dfsList g s ↔ Reach g s x := by
  have hfuel : [s].length + (g.numVertices - (∅ : Finset Nat).card)
      * (g.numVertices + 1) ≤ dfsFuel g := by
    simp [dfsFuel]; omega
  obtain ⟨h1, h2, h3, h4, h5⟩ := dfsLoop_spec g (dfsFuel g) ∅ [s] (by simp)
    (by intro x hx; simp at hx; omega) hfuel
  have hsr : s ∈ dfsList g s := by
    rcases h3 s (List.mem_cons_self s []) with h | h
    · simp at h
    · exact h
  intro x
  constructor
  · intro hx
    obtain ⟨y, hy, hr⟩ := h4 x hx
    have : y = s := by simpa using hy
    rw [this] at hr
    exact hr
  · intro hx
    induction hx with
    | refl => exact hsr
    | tail _ hadj ih =>
        rcases h5 _ ih _ hadj with h | h
        · simp at h
        · exact h

lemma dfsList_subset_range {g : Graph} {s : Nat} (hs : s < g.numVertices) :
    ∀ x ∈ dfsList g s, x < g.numVertices := by
  have hfuel : [s].length + (g.numVertices - (∅ : Finset Nat).card)
      * (g.numVertices + 1) ≤ dfsFuel g := by
    simp [dfsFuel]; omega
  intro x hx
  exact ((dfsLoop_spec g (dfsFuel g) ∅ [s] (by simp)
    (by intro x hx; simp at hx; omega) hfuel).2.1 x hx).1

lemma subset_reachStep (g : Graph) (S : Finset Nat) : S ⊆ reachStep g S :=
  Finset.subset_union_left

lemma reachStep_mono (g : Graph) {S T : Finset Nat} (h : S ⊆ T) :
    reachStep g S ⊆ reachStep g T := by
  unfold reachStep
  exact Finset.union_subset_union h (Finset.biUnion_subset_biUnion_of_subset_left _ h)

lemma reachStep_subset_range (g : Graph) {S : Finset Nat}
    (hS : S ⊆ Finset.range g.numVertices) :
    reachStep g S ⊆ Finset.range g.numVertices := by
  unfold reachStep
  refine Finset.union_subset hS ?_
  intro x hx
  obtain ⟨u, _, hxu⟩ := Finset.mem_biUnion.mp hx
  exact Finset.mem_range.mpr (mem_getNeighbors.mp (List.mem_toFinset.mp hxu)).1

lemma reachStep_sound (g : Graph) {s : Nat} {S : Finset Nat}
    (hS₁ : S ⊆ Finset.range g.numVertices)
    (hS₂ : ∀ x ∈ S, Reach g s x) :
    ∀ x ∈ reachStep g S, Reach g s x := by
  intro x hx
  rcases Finset.mem_union.mp hx with hx' | hx'
  · exact hS₂ x hx'
  · obtain ⟨u, hu, hxu⟩ := Finset.mem_biUnion.mp hx'
    have hadj : adjacent g u x := adjacent_iff_mem_getNeighbors.mpr
      ⟨Finset.mem_range.mp (hS₁ hu), List.mem_toFinset.mp hxu⟩
    exact Relation.ReflTransGen.tail (hS₂ u hu) hadj

lemma reachStep_fixed_closed (g : Graph) {S : Finset Nat}
    (hfix : reachStep g S = S) {u w : Nat} (hu : u ∈ S) (hadj : adjacent g u w) :
    w ∈ S := by
  have : w ∈ reachStep g S := by
    refine Finset.mem_union_right _ (Finset.mem_biUnion.mpr ⟨u, hu, ?_⟩)
    exact List.mem_toFinset.mpr ((adjacent_iff_mem_getNeighbors.mp hadj).2)
  rwa [hfix] at this

lemma iterate_reachStep_subset_range (g : Graph) {s : Nat}
    (hs : s < g.numVertices) :
    ∀ k, (reachStep g)^[k] {s} ⊆ Finset.range g.numVertices := by
  intro k
  induction k with
  | zero => simpa using Finset.singleton_subset_iff.mpr (Finset.mem_range.mpr hs)
  | succ n ihn =>
      rw [Function.iterate_succ_apply']
      exact reachStep_subset_range g ihn

lemma iterate_reachStep_mono_succ (g : Graph) (s : Nat) (k : Nat) :
    (reachStep g)^[k] {s} ⊆ (reachStep g)^[k + 1] {s} := by
  rw [Function.iterate_succ_apply']
  exact subset_reachStep g _

/-- The iteration stabilizes within `numVertices` steps: the final set is a
fixed point of `reachStep`. -/
lemma reachSet_fixed (g : Graph) {s : Nat} (hs : s < g.numVertices) :
    reachStep g (reachSet g s) = reachSet g s := by
  -- if no step in 0..n-1 stabilizes, cards strictly grow beyond n
  by_cases hstab : ∃ k < g.numVertices,
      (reachStep g)^[k + 1] {s} = (reachStep g)^[k] {s}
  · obtain ⟨k, hk, hfix⟩ := hstab
    have hstable : ∀ m, k ≤ m → (reachStep g)^[m] {s} = (reachStep g)^[k] {s} := by
      intro m hm
      induction m with
      | zero =>
          have : k = 0 := Nat.le_zero.mp hm
          rw [this]
      | succ p ihp =>
          rcases Nat.lt_or_ge k (p + 1) with hlt | hge
          · have hkp : k ≤ p := Nat.lt_succ_iff.mp hlt
            rw [Function.iterate_succ_apply', ihp hkp,
              ← Function.iterate_succ_apply' (reachStep g) k {s}]
            exact hfix
          · have : k = p + 1 := le_antisymm hm hge
            rw [this]
    have h1 : reachSet g s = (reachStep g)^[k] {s} :=
      hstable g.numVertices (le_of_lt hk)
    rw [h1, ← Function.iterate_succ_apply' (reachStep g) k {s}]
    exact hfix
  · exfalso
    push_neg at hstab
    have hgrow : ∀ k ≤ g.numVertices, k + 1 ≤ ((reachStep g)^[k] {s}).card := by
      intro k hk
      induction k with
      | zero => simp
      | succ p ihp =>
          have hssub : (reachStep g)^[p] {s} ⊂ (reachStep g)^[p + 1] {s} := by
            refine Finset.ssubset_iff_subset_ne.mpr
              ⟨iterate_reachStep_mono_succ g s p, ?_⟩
            exact fun h => hstab p (Nat.lt_of_succ_le hk) h.symm
          have := Finset.card_lt_card hssub
          have := ihp (Nat.le_of_succ_le hk)
          omega
    have hcard := hgrow g.numVertices (le_refl _)
    have hle : ((reachStep g)^[g.numVertices] {s}).card ≤ g.numVertices := by
      have := Finset.card_le_card (iterate_reachStep_subset_range g hs g.numVertices)
      simpa using this
    omega

lemma mem_reachSet {g : Graph} {s : Nat} (hs : s < g.numVertices) :
    ∀ x, x ∈ reachSet g s ↔ Reach g s x := by
  intro x
  constructor
  · intro hx
    -- soundness of every iterate
    have hsound : ∀ k, ∀ y ∈ (reachStep g)^[k] {s}, Reach g s y := by
      intro k
      induction k with
      | zero => intro y hy; simp at hy; subst hy; exact Relation.ReflTransGen.refl
      | succ p ihp =>
          rw [Function.iterate_succ_apply']
          exact reachStep_sound g (iterate_reachStep_subset_range g hs p) ihp
    exact hsound g.numVertices x hx
  · intro hx
    have hsmem : s ∈ reachSet g s := by
      have : s ∈ ({s} : Finset Nat) := Finset.mem_singleton_self s
      have hsub : ({s} : Finset Nat) ⊆ reachSet g s := by
        have : ∀ k, ({s} : Finset Nat) ⊆ (reachStep g)^[k] {s} := by
          intro k
          induction k with
          | zero => simp
          | succ p ihp =>
              exact subset_trans ihp (iterate_reachStep_mono_succ g s p)
        exact this g.numVertices
      exact hsub this
    induction hx with
    | refl => exact hsmem
    | tail _ hadj ih =>
        exact reachStep_fixed_closed g (reachSet_fixed g hs) ih hadj

lemma getNeighbors_nodup (g : Graph) (u : Nat) : (getNeighbors g u).Nodup :=
  (List.nodup_range g.numVertices).filter _

/-- Invariant lemma for the BFS loop: with every queue entry already marked,
the emitted list is duplicate-free, contains the queue, is reachable from the
queue, and is closed under edges up to the marked set. -/
lemma bfsLoop_spec (g : Graph) : ∀ (fuel : Nat) (V : Finset Nat) (q : List Nat),
    V ⊆ Finset.range g.numVertices →
    (∀ x ∈ q, x ∈ V) →
    q.Nodup →
    q.length + 2 * (g.numVertices - V.card) ≤ fuel →
    (bfsLoop g fuel V q).Nodup ∧
    (∀ x ∈ q, x ∈ bfsLoop g fuel V q) ∧
    (∀ x ∈ bfsLoop g fuel V q, x < g.numVertices ∧ (x ∈ q ∨ x ∉ V)) ∧
    (∀ x ∈ bfsLoop g fuel V q, ∃ y ∈ q, Relation.ReflTransGen (adjacent g) y x) ∧
    (∀ u ∈ bfsLoop g fuel V q, ∀ w, adjacent g u w →
      w ∈ V ∨ w ∈ bfsLoop g fuel V q) := by
  intro fuel
  induction fuel with
  | zero =>
      intro V q hV hq hnd hfuel
      cases q with
      | nil => simp [bfsLoop]
      | cons v t => simp at hfuel
  | succ f ih =>
      intro V q hV hq hnd hfuel
      cases q with
      | nil => simp [bfsLoop]
      | cons v t =>
        have hvV : v ∈ V := hq v (List.mem_cons_self v t)
        have hvn : v < g.numVertices := Finset.mem_range.mp (hV hvV)
        set fresh := (getNeighbors g v).filter (fun w => w ∉ V) with hfresh
        have hfreshV : ∀ x ∈ fresh, x ∉ V := by
          intro x hx
          have := List.of_mem_filter hx
          simpa using this
        have hfreshn : ∀ x ∈ fresh, x < g.numVertices := by
          intro x hx
          exact (mem_getNeighbors.mp (List.mem_of_mem_filter hx)).1
        have hfreshnd : fresh.Nodup := (getNeighbors_nodup g v).filter _
        have hV' : V ∪ fresh.toFinset ⊆ Finset.range g.numVertices := by
          refine Finset.union_subset hV ?_
          intro x hx
          exact Finset.mem_range.mpr (hfreshn x (List.mem_toFinset.mp hx))
        have hq' : ∀ x ∈ t ++ fresh, x ∈ V ∪ fresh.toFinset := by
          intro x hx
          rcases List.mem_append.mp hx with hx' | hx'
          · exact Finset.mem_union_left _ (hq x (List.mem_cons_of_mem v hx'))
          · exact Finset.mem_union_right _ (List.mem_toFinset.mpr hx')
        have hnd' : (t ++ fresh).Nodup := by
          refine List.Nodup.append ((List.nodup_cons.mp hnd).2) hfreshnd ?_
          intro x hx hx'
          exact hfreshV x hx' (hq x (List.mem_cons_of_mem v hx))
        have hdisj : Disjoint V fresh.toFinset := by
          rw [Finset.disjoint_right]
          intro x hx
          exact hfreshV x (List.mem_toFinset.mp hx)
        have hcard' : (V ∪ fresh.toFinset).card = V.card + fresh.length := by
          rw [Finset.card_union_of_disjoint hdisj, List.toFinset_card_of_nodup hfreshnd]
        have hcardle : (V ∪ fresh.toFinset).card ≤ g.numVertices := by
          have := Finset.card_le_card hV'
          simpa using this
        have hfuel' : (t ++ fresh).length
            + 2 * (g.numVertices - (V ∪ fresh.toFinset).card) ≤ f := by
          rw [List.length_append, hcard']
          rw [hcard'] at hcardle
          simp only [List.length_cons] at hfuel
          omega
        obtain ⟨h1, h2, h3, h4, h5⟩ := ih (V ∪ fresh.toFinset) (t ++ fresh) hV' hq' hnd' hfuel'
        have heq : bfsLoop g (f + 1) V (v :: t)
            = v :: bfsLoop g f (V ∪ fresh.toFinset) (t ++ fresh) := by
          simp [bfsLoop, hfresh]
        rw [heq]
        set r' := bfsLoop g f (V ∪ fresh.toFinset) (t ++ fresh) with hr'
        have hvr' : v ∉ r' := by
          intro hmem
          rcases (h3 v hmem).2 with hvq | hvV'
          · rcases List.mem_append.mp hvq with h | h
            · exact (List.nodup_cons.mp hnd).1 h
            · exact hfreshV v h hvV
          · exact hvV' (Finset.mem_union_left _ hvV)
        refine ⟨List.nodup_cons.mpr ⟨hvr', h1⟩, ?_, ?_, ?_, ?_⟩
        · intro x hx
          rcases List.mem_cons.mp hx with rfl | hx'
          · exact List.mem_cons_self _ _
          · exact List.mem_cons_of_mem v (h2 x (List.mem_append_left _ hx'))
        · intro x hx
          rcases List.mem_cons.mp hx with rfl | hx'
          · exact ⟨hvn, Or.inl (List.mem_cons_self _ _)⟩
          · obtain ⟨hxn, hxor⟩ := h3 x hx'
            refine ⟨hxn, ?_⟩
            rcases hxor with hxq | hxV
            · rcases List.mem_append.mp hxq with h | h
              · exact Or.inl (List.mem_cons_of_mem v h)
              · exact Or.inr (hfreshV x h)
            · exact Or.inr (fun hxV' => hxV (Finset.mem_union_left _ hxV'))
        · intro x hx
          rcases List.mem_cons.mp hx with rfl | hx'
          · exact ⟨x, List.mem_cons_self x t, Relation.ReflTransGen.refl⟩
          · obtain ⟨y, hy, hreach⟩ := h4 x hx'
            rcases List.mem_append.mp hy with hyt | hyf
            · exact ⟨y, List.mem_cons_of_mem v hyt, hreach⟩
            · have hadj : adjacent g v y := adjacent_iff_mem_getNeighbors.mpr
                ⟨hvn, List.mem_of_mem_filter hyf⟩
              exact ⟨v, List.mem_cons_self v t,
                Relation.ReflTransGen.head hadj hreach⟩
        · intro u hu w hadj
          rcases List.mem_cons.mp hu with rfl | hu'
          · by_cases hwV : w ∈ V
            · exact Or.inl hwV
            · have hwf : w ∈ fresh := by
                rw [hfresh]
                refine List.mem_filter.mpr ⟨?_, by simpa using hwV⟩
                exact (adjacent_iff_mem_getNeighbors.mp hadj).2
              exact Or.inr (List.mem_cons_of_mem u
                (h2 w (List.mem_append_right _ hwf)))
          · rcases h5 u hu' w hadj with hwV | hwr
            · rcases Finset.mem_union.mp hwV with h | h
              · exact Or.inl h
              · exact Or.inr (List.mem_cons_of_mem v
                  (h2 w (List.mem_append_right _ (List.mem_toFinset.mp h))))
            · exact Or.inr (List.mem_cons_of_mem v hwr)

lemma bfsList_start_facts {g : Graph} {s : Nat} (hs : s < g.numVertices) :
    (bfsList g s).Nodup ∧
    (∀ x, x ∈ bfsList g s ↔ Reach g s x) ∧
    (∀ x ∈ bfsList g s, x < g.numVertices) := by
  have hV : ({s} : Finset Nat) ⊆ Finset.range g.numVertices := by
    simpa using Finset.mem_range.mpr hs
  have hfuel : [s].length + 2 * (g.numVertices - ({s} : Finset Nat).card)
      ≤ bfsFuel g := by
    simp [bfsFuel]; omega
  obtain ⟨h1, h2, h3, h4, h5⟩ := bfsLoop_spec g (bfsFuel g) {s} [s] hV
    (by intro x hx; simp at hx; simp [hx]) (List.nodup_singleton s) hfuel
  have hsr : s ∈ bfsList g s := h2 s (List.mem_cons_self s [])
  refine ⟨h1, ?_, fun x hx => (h3 x hx).1⟩
  intro x
  constructor
  · intro hx
    obtain ⟨y, hy, hr⟩ := h4 x hx
    have : y = s := by simpa using hy
    rw [this] at hr
    exact hr
  · intro hx
    induction hx with
    | refl => exact hsr
    | tail _ hadj ih =>
        rcases h5 _ ih _ hadj with h | h
        · have : _ = s := Finset.mem_singleton.mp h
          rw [this]
          exact hsr
        · exact h

/-- Invariant lemma for the earlier-revision DFS loop; identical in content to
the BFS one (the two differ only in where fresh vertices are inserted). -/
lemma dfsOldLoop_spec (g : Graph) : ∀ (fuel : Nat) (V : Finset Nat) (st : List Nat),
    V ⊆ Finset.range g.numVertices →
    (∀ x ∈ st, x ∈ V) →
    st.Nodup →
    st.length + 2 * (g.numVertices - V.card) ≤ fuel →
    (dfsOldLoop g fuel V st).Nodup ∧
    (∀ x ∈ st, x ∈ dfsOldLoop g fuel V st) ∧
    (∀ x ∈ dfsOldLoop g fuel V st, x < g.numVertices ∧ (x ∈ st ∨ x ∉ V)) ∧
    (∀ x ∈ dfsOldLoop g fuel V st, ∃ y ∈ st, Relation.ReflTransGen (adjacent g) y x) ∧
    (∀ u ∈ dfsOldLoop g fuel V st, ∀ w, adjacent g u w →
      w ∈ V ∨ w ∈ dfsOldLoop g fuel V st) := by
  intro fuel
  induction fuel with
  | zero =>
      intro V st hV hq hnd hfuel
      cases st with
      | nil => simp [dfsOldLoop]
      | cons v t => simp at hfuel
  | succ f ih =>
      intro V st hV hq hnd hfuel
      cases st with
      | nil => simp [dfsOldLoop]
      | cons v t =>
        have hvV : v ∈ V := hq v (List.mem_cons_self v t)
        have hvn : v < g.numVertices := Finset.mem_range.mp (hV hvV)
        set fresh := (getNeighbors g v).filter (fun w => w ∉ V) with hfresh
        have hfreshV : ∀ x ∈ fresh, x ∉ V := by
          intro x hx
          have := List.of_mem_filter hx
          simpa using this
        have hfreshn : ∀ x ∈ fresh, x < g.numVertices := by
          intro x hx
          exact (mem_getNeighbors.mp (List.mem_of_mem_filter hx)).1
        have hfreshnd : fresh.Nodup := (getNeighbors_nodup g v).filter _
        have hV' : V ∪ fresh.toFinset ⊆ Finset.range g.numVertices := by
          refine Finset.union_subset hV ?_
          intro x hx
          exact Finset.mem_range.mpr (hfreshn x (List.mem_toFinset.mp hx))
        have hq' : ∀ x ∈ fresh ++ t, x ∈ V ∪ fresh.toFinset := by
          intro x hx
          rcases List.mem_append.mp hx with hx' | hx'
          · exact Finset.mem_union_right _ (List.mem_toFinset.mpr hx')
          · exact Finset.mem_union_left _ (hq x (List.mem_cons_of_mem v hx'))
        have hnd' : (fresh ++ t).Nodup := by
          refine List.Nodup.append hfreshnd ((List.nodup_cons.mp hnd).2) ?_
          intro x hx hx'
          exact hfreshV x hx (hq x (List.mem_cons_of_mem v hx'))
        have hdisj : Disjoint V fresh.toFinset := by
          rw [Finset.disjoint_right]
          intro x hx
          exact hfreshV x (List.mem_toFinset.mp hx)
        have hcard' : (V ∪ fresh.toFinset).card = V.card + fresh.length := by
          rw [Finset.card_union_of_disjoint hdisj, List.toFinset_card_of_nodup hfreshnd]
        have hcardle : (V ∪ fresh.toFinset).card ≤ g.numVertices := by
          have := Finset.card_le_card hV'
          simpa using this
        have hfuel' : (fresh ++ t).length
            + 2 * (g.numVertices - (V ∪ fresh.toFinset).card) ≤ f := by
          rw [List.length_append, hcard']
          rw [hcard'] at hcardle
          simp only [List.length_cons] at hfuel
          omega
        obtain ⟨h1, h2, h3, h4, h5⟩ := ih (V ∪ fresh.toFinset) (fresh ++ t) hV' hq' hnd' hfuel'
        have heq : dfsOldLoop g (f + 1) V (v :: t)
            = v :: dfsOldLoop g f (V ∪ fresh.toFinset) (fresh ++ t) := by
          simp [dfsOldLoop, hfresh]
        rw [heq]
        set r' := dfsOldLoop g f (V ∪ fresh.toFinset) (fresh ++ t) with hr'
        have hvr' : v ∉ r' := by
          intro hmem
          rcases (h3 v hmem).2 with hvq | hvV'
          · rcases List.mem_append.mp hvq with h | h
            · exact hfreshV v h hvV
            · exact (List.nodup_cons.mp hnd).1 h
          · exact hvV' (Finset.mem_union_left _ hvV)
        refine ⟨List.nodup_cons.mpr ⟨hvr', h1⟩, ?_, ?_, ?_, ?_⟩
        · intro x hx
          rcases List.mem_cons.mp hx with rfl | hx'
          · exact List.mem_cons_self _ _
          · exact List.mem_cons_of_mem v (h2 x (List.mem_append_right _ hx'))
        · intro x hx
          rcases List.mem_cons.mp hx with rfl | hx'
          · exact ⟨hvn, Or.inl (List.mem_cons_self _ _)⟩
          · obtain ⟨hxn, hxor⟩ := h3 x hx'
            refine ⟨hxn, ?_⟩
            rcases hxor with hxq | hxV
            · rcases List.mem_append.mp hxq with h | h
              · exact Or.inr (hfreshV x h)
              · exact Or.inl (List.mem_cons_of_mem v h)
            · exact Or.inr (fun hxV' => hxV (Finset.mem_union_left _ hxV'))
        · intro x hx
          rcases List.mem_cons.mp hx with rfl | hx'
          · exact ⟨x, List.mem_cons_self x t, Relation.ReflTransGen.refl⟩
          · obtain ⟨y, hy, hreach⟩ := h4 x hx'
            rcases List.mem_append.mp hy with hyf | hyt
            · have hadj : adjacent g v y := adjacent_iff_mem_getNeighbors.mpr
                ⟨hvn, List.mem_of_mem_filter hyf⟩
              exact ⟨v, List.mem_cons_self v t,
                Relation.ReflTransGen.head hadj hreach⟩
            · exact ⟨y, List.mem_cons_of_mem v hyt, hreach⟩
        · intro u hu w hadj
          rcases List.mem_cons.mp hu with rfl | hu'
          · by_cases hwV : w ∈ V
            · exact Or.inl hwV
            · have hwf : w ∈ fresh := by
                rw [hfresh]
                refine List.mem_filter.mpr ⟨?_, by simpa using hwV⟩
                exact (adjacent_iff_mem_getNeighbors.mp hadj).2
              exact Or.inr (List.mem_cons_of_mem u
                (h2 w (List.mem_append_left _ hwf)))
          · rcases h5 u hu' w hadj with hwV | hwr
            · rcases Finset.mem_union.mp hwV with h | h
              · exact Or.inl h
              · exact Or.inr (List.mem_cons_of_mem v
                  (h2 w (List.mem_append_left _ (List.mem_toFinset.mp h))))
            · exact Or.inr (List.mem_cons_of_mem v hwr)

lemma dfsOldList_start_facts {g : Graph} {s : Nat} (hs : s < g.numVertices) :
    (dfsOldList g s).Nodup ∧
    (∀ x, x ∈ dfsOldList g s ↔ Reach g s x) ∧
    (∀ x ∈ dfsOldList g s, x < g.numVertices) := by
  have hV : ({s} : Finset Nat) ⊆ Finset.range g.numVertices := by
    simpa using Finset.mem_range.mpr hs
  have hfuel : [s].length + 2 * (g.numVertices - ({s} : Finset Nat).card)
      ≤ bfsFuel g := by
    simp [bfsFuel]; omega
  obtain ⟨h1, h2, h3, h4, h5⟩ := dfsOldLoop_spec g (bfsFuel g) {s} [s] hV
    (by intro x hx; simp at hx; simp [hx]) (List.nodup_singleton s) hfuel
  have hsr : s ∈ dfsOldList g s := h2 s (List.mem_cons_self s [])
  refine ⟨h1, ?_, fun x hx => (h3 x hx).1⟩
  intro x
  constructor
  · intro hx
    obtain ⟨y, hy, hr⟩ := h4 x hx
    have : y = s := by simpa using hy
    rw [this] at hr
    exact hr
  · intro hx
    induction hx with
    | refl => exact hsr
    | tail _ hadj ih =>
        rcases h5 _ ih _ hadj with h | h
        · have : _ = s := Finset.mem_singleton.mp h
          rw [this]
          exact hsr
        · exact h

lemma length_eq_of_nodup_mem {l₁ l₂ : List Nat} (h₁ : l₁.Nodup) (h₂ : l₂.Nodup)
    (h : ∀ x, x ∈ l₁ ↔ x ∈ l₂) : l₁.length = l₂.length := by
  rw [← List.toFinset_card_of_nodup h₁, ← List.toFinset_card_of_nodup h₂]
  congr 1
  ext x
  simp only [List.mem_toFinset]
  exact h x

/-- Decomposition: any element `x` of the DFS output corresponds to a loop
state in which `x` sits on top of the stack and the visited set is exactly the
initial one plus the prefix emitted before `x`. -/
lemma dfsLoop_decomp (g : Graph) : ∀ (fuel : Nat) (V : Finset Nat) (st : List Nat),
    V ⊆ Finset.range g.numVertices →
    (∀ z ∈ st, z < g.numVertices) →
    st.length + (g.numVertices - V.card) * (g.numVertices + 1) ≤ fuel →
    ∀ p x rest, dfsLoop g fuel V st = p ++ x :: rest →
    ∃ fuel' V' st',
      V' = V ∪ p.toFinset ∧
      V' ⊆ Finset.range g.numVertices ∧
      (∀ z ∈ x :: st', z < g.numVertices) ∧
      x ∉ V' ∧
      (x :: st').length + (g.numVertices - V'.card) * (g.numVertices + 1) ≤ fuel' ∧
      dfsLoop g fuel' V' (x :: st') = x :: rest := by
  intro fuel
  induction fuel with
  | zero =>
      intro V st hV hst hfuel p x rest heq
      cases st with
      | nil => simp [dfsLoop] at heq
      | cons v t => simp at hfuel
  | succ f ih =>
      intro V st hV hst hfuel p x rest heq
      cases st with
      | nil => simp [dfsLoop] at heq
      | cons v t =>
        have hvn : v < g.numVertices := hst v (List.mem_cons_self v t)
        by_cases hv : v ∈ V
        · have hst' : ∀ z ∈ t, z < g.numVertices :=
            fun z hz => hst z (List.mem_cons_of_mem v hz)
          have hfuel' :
              t.length + (g.numVertices - V.card) * (g.numVertices + 1) ≤ f := by
            simp only [List.length_cons] at hfuel; omega
          have heq' : dfsLoop g f V t = p ++ x :: rest := by
            rw [← heq]; simp [dfsLoop, hv]
          exact ih V t hV hst' hfuel' p x rest heq'
        · have hcard : V.card < g.numVertices := by
            have hsub : insert v V ⊆ Finset.range g.numVertices := by
              intro z hz
              rcases Finset.mem_insert.mp hz with rfl | hz'
              · exact Finset.mem_range.mpr hvn
              · exact hV hz'
            have := Finset.card_le_card hsub
            rw [Finset.card_insert_of_not_mem hv, Finset.card_range] at this
            omega
          have hUlen :
              ((getNeighbors g v).filter (fun w => w ∉ insert v V)).length
                ≤ g.numVertices :=
            le_trans (List.filter_sublist _).length_le (getNeighbors_length_le g v)
          have hV' : insert v V ⊆ Finset.range g.numVertices := by
            intro z hz
            rcases Finset.mem_insert.mp hz with rfl | hz'
            · exact Finset.mem_range.mpr hvn
            · exact hV hz'
          have hst' : ∀ z ∈ ((getNeighbors g v).filter
              (fun w => w ∉ insert v V)) ++ t, z < g.numVertices := by
            intro z hz
            rcases List.mem_append.mp hz with hz' | hz'
            · exact (mem_getNeighbors.mp (List.mem_of_mem_filter hz')).1
            · exact hst z (List.mem_cons_of_mem v hz')
          have hfuel' : (((getNeighbors g v).filter
                (fun w => w ∉ insert v V)) ++ t).length
              + (g.numVertices - (insert v V).card) * (g.numVertices + 1) ≤ f := by
            rw [List.length_append, Finset.card_insert_of_not_mem hv]
            simp only [List.length_cons] at hfuel
            have hsplit : (g.numVertices - V.card) * (g.numVertices + 1)
                = (g.numVertices - (V.card + 1)) * (g.numVertices + 1)
                  + (g.numVertices + 1) := by
              rw [show g.numVertices - V.card
                  = (g.numVertices - (V.card + 1)) + 1 from by omega, add_mul,
                one_mul]
            omega
          have heq' : v :: dfsLoop g f (insert v V)
              (((getNeighbors g v).filter (fun w => w ∉ insert v V)) ++ t)
              = p ++ x :: rest := by
            rw [← heq]; simp [dfsLoop, hv]
          cases p with
          | nil =>
              simp only [List.nil_append] at heq'
              injection heq' with h1 h2
              subst h1
              refine ⟨f + 1, V, t, by simp, hV, hst, hv, hfuel, ?_⟩
              rw [heq]
              simp
          | cons p₀ p' =>
              simp only [List.cons_append] at heq'
              injection heq' with h1 h2
              subst h1
              obtain ⟨fuel', V₂, st', hV₂, hV₂sub, hst₂, hxV₂, hfuel₂, heq₂⟩ :=
                ih (insert v V) _ hV' hst' hfuel' p' x rest h2
              refine ⟨fuel', V₂, st', ?_, hV₂sub, hst₂, hxV₂, hfuel₂, heq₂⟩
              rw [hV₂]
              ext z
              simp only [Finset.mem_union, Finset.mem_insert, List.toFinset_cons,
                List.mem_toFinset]
              tauto

/-- When the accepted vertex has at least one unvisited neighbor, the head of
the (ascending) unvisited neighbor list is the very next vertex accepted. -/
lemma dfsLoop_next_step (g : Graph) {fuel : Nat} {V : Finset Nat} {st : List Nat}
    {x : Nat}
    (hV : V ⊆ Finset.range g.numVertices)
    (hst : ∀ z ∈ x :: st, z < g.numVertices)
    (hx : x ∉ V)
    (hfuel : (x :: st).length + (g.numVertices - V.card) * (g.numVertices + 1)
      ≤ fuel)
    {w : Nat} {U' : List Nat}
    (hU : (getNeighbors g x).filter (fun z => z ∉ insert x V) = w :: U') :
    ∃ rest, dfsLoop g fuel V (x :: st) = x :: w :: rest := by
  have hxn : x < g.numVertices := hst x (List.mem_cons_self x st)
  cases fuel with
  | zero => simp at hfuel
  | succ f =>
      have heq : dfsLoop g (f + 1) V (x :: st)
          = x :: dfsLoop g f (insert x V)
              (((getNeighbors g x).filter (fun z => z ∉ insert x V)) ++ st) := by
        simp [dfsLoop, hx]
      have hcard : V.card < g.numVertices := by
        have hsub : insert x V ⊆ Finset.range g.numVertices := by
          intro z hz
          rcases Finset.mem_insert.mp hz with rfl | hz'
          · exact Finset.mem_range.mpr hxn
          · exact hV hz'
        have := Finset.card_le_card hsub
        rw [Finset.card_insert_of_not_mem hx, Finset.card_range] at this
        omega
      have hUlen :
          ((getNeighbors g x).filter (fun z => z ∉ insert x V)).length
            ≤ g.numVertices :=
        le_trans (List.filter_sublist _).length_le (getNeighbors_length_le g x)
      have hfuel' : (((getNeighbors g x).filter
            (fun z => z ∉ insert x V)) ++ st).length
          + (g.numVertices - (insert x V).card) * (g.numVertices + 1) ≤ f := by
        rw [List.length_append, Finset.card_insert_of_not_mem hx]
        simp only [List.length_cons] at hfuel
        have hsplit : (g.numVertices - V.card) * (g.numVertices + 1)
            = (g.numVertices - (V.card + 1)) * (g.numVertices + 1)
              + (g.numVertices + 1) := by
          rw [show g.numVertices - V.card
              = (g.numVertices - (V.card + 1)) + 1 from by omega, add_mul, one_mul]
        omega
      rw [hU] at hfuel'
      cases f with
      | zero => simp at hfuel'
      | succ f₂ =>
          have hwU : w ∈ (getNeighbors g x).filter (fun z => z ∉ insert x V) := by
            rw [hU]; exact List.mem_cons_self w U'
          have hwV : w ∉ insert x V := by
            have := List.of_mem_filter hwU
            simpa using this
          rw [heq, hU]
          have heq2 : dfsLoop g (f₂ + 1) (insert x V) ((w :: U') ++ st)
              = w :: dfsLoop g f₂ (insert w (insert x V))
                  (((getNeighbors g w).filter
                    (fun z => z ∉ insert w (insert x V))) ++ (U' ++ st)) := by
              simp [dfsLoop, hwV]
          rw [List.cons_append] at heq2 ⊢
          rw [heq2]
          exact ⟨_, rfl⟩

lemma dfsList_order_facts {g : Graph} {s : Nat} (hs : s < g.numVertices) :
    (∀ p x y q, dfsList g s = p ++ x :: y :: q →
      unvisitedNeighbors g x p ≠ [] →
      y ∈ unvisitedNeighbors g x p ∧ ∀ w ∈ unvisitedNeighbors g x p, y ≤ w) ∧
    (∀ p x, dfsList g s = p ++ [x] → unvisitedNeighbors g x p = []) := by
  have hV : (∅ : Finset Nat) ⊆ Finset.range g.numVertices := by simp
  have hst : ∀ z ∈ [s], z < g.numVertices := by
    intro z hz; simp at hz; omega
  have hfuel : [s].length + (g.numVertices - (∅ : Finset Nat).card)
      * (g.numVertices + 1) ≤ dfsFuel g := by
    simp [dfsFuel]; omega
  have key : ∀ p x rest, dfsList g s = p ++ x :: rest →
      ∃ fuel' V' st',
        V' ⊆ Finset.range g.numVertices ∧
        (∀ z ∈ x :: st', z < g.numVertices) ∧
        x ∉ V' ∧
        (x :: st').length + (g.numVertices - V'.card) * (g.numVertices + 1)
          ≤ fuel' ∧
        dfsLoop g fuel' V' (x :: st') = x :: rest ∧
        (getNeighbors g x).filter (fun z => z ∉ insert x V')
          = unvisitedNeighbors g x p := by
    intro p x rest heq
    obtain ⟨fuel', V', st', hV'eq, hV'sub, hst', hxV', hfuel', heqloop⟩ :=
      dfsLoop_decomp g (dfsFuel g) ∅ [s] hV hst hfuel p x rest heq
    refine ⟨fuel', V', st', hV'sub, hst', hxV', hfuel', heqloop, ?_⟩
    refine List.filter_congr ?_
    intro z _
    have hiff : (z ∉ insert x V') ↔ (z ∉ p ∧ z ≠ x) := by
      rw [hV'eq]
      simp only [Finset.mem_insert, Finset.empty_union, List.mem_toFinset]
      tauto
    exact decide_eq_decide.mpr hiff
  constructor
  · intro p x y q heq hne
    obtain ⟨fuel', V', st', hV'sub, hst', hxV', hfuel', heqloop, hfilter⟩ :=
      key p x (y :: q) heq
    cases hU : (getNeighbors g x).filter (fun z => z ∉ insert x V') with
    | nil => rw [hU] at hfilter; exact absurd hfilter.symm hne
    | cons w U' =>
        obtain ⟨rest2, heq2⟩ :=
          dfsLoop_next_step g hV'sub hst' hxV' hfuel' hU
        rw [heqloop] at heq2
        injection heq2 with _ h2
        injection h2 with h3 _
        subst h3
        have hsorted : ((getNeighbors g x).filter
            (fun z => z ∉ insert x V')).Pairwise (· < ·) :=
          (getNeighbors_sorted g x).filter _
        rw [hU] at hsorted
        rw [← hfilter, hU]
        refine ⟨List.mem_cons_self _ _, ?_⟩
        intro z hz
        rcases List.mem_cons.mp hz with rfl | hz'
        · exact le_refl z
        · exact le_of_lt ((List.pairwise_cons.mp hsorted).1 z hz')
  · intro p x heq
    obtain ⟨fuel', V', st', hV'sub, hst', hxV', hfuel', heqloop, hfilter⟩ :=
      key p x [] heq
    cases hU : (getNeighbors g x).filter (fun z => z ∉ insert x V') with
    | nil => rw [hU] at hfilter; exact hfilter.symm
    | cons w U' =>
        obtain ⟨rest2, heq2⟩ :=
          dfsLoop_next_step g hV'sub hst' hxV' hfuel' hU
        rw [heqloop] at heq2
        injection heq2 with _ h2
        simp at h2

lemma dfsList_toFinset {g : Graph} {s : Nat} (hs : s < g.numVertices) :
    (dfsList g s).toFinset = reachSet g s := by
  ext x
  rw [List.mem_toFinset, mem_dfsList hs, mem_reachSet hs]

lemma dfsList_length_le {g : Graph} {s : Nat} (hs : s < g.numVertices) :
    (dfsList g s).length ≤ g.numVertices := by
  have h1 : (dfsList g s).toFinset ⊆ Finset.range g.numVertices := by
    intro x hx
    exact Finset.mem_range.mpr (dfsList_subset_range hs x (List.mem_toFinset.mp hx))
  have := Finset.card_le_card h1
  rw [List.toFinset_card_of_nodup (dfsList_nodup hs), Finset.card_range] at this
  exact this

lemma dfsList_full_of_length {g : Graph} {s : Nat} (hs : s < g.numVertices)
    (hlen : (dfsList g s).length = g.numVertices) :
    ∀ v, v < g.numVertices → v ∈ dfsList g s := by
  have h1 : (dfsList g s).toFinset ⊆ Finset.range g.numVertices := by
    intro x hx
    exact Finset.mem_range.mpr (dfsList_subset_range hs x (List.mem_toFinset.mp hx))
  have hcard : (Finset.range g.numVertices).card ≤ (dfsList g s).toFinset.card := by
    rw [List.toFinset_card_of_nodup (dfsList_nodup hs), hlen, Finset.card_range]
  have heq := Finset.eq_of_subset_of_card_le h1 hcard
  intro v hv
  rw [← List.mem_toFinset, heq]
  exact Finset.mem_range.mpr hv

/-- C6: for every graph and valid start vertex, the depth-first traversal
(current revision: a vertex is marked visited when popped and accepted,
neighbors pushed in descending index order) returns a sequence whose length
equals the size of the component reachable from the start; whenever the
accepted vertex has unvisited neighbors, the smallest-indexed one is the next
vertex of the sequence, and the last vertex has none left. -/
theorem C6_dfs_order_and_component (g : Graph) (s : Nat) (hs : s < g.numVertices) :
    ((dfsList g s).length = (reachSet g s).card ∧
      (∀ v, v ∈ reachSet g s ↔ Reach g s v)) ∧
    (∀ p x y q, dfsList g s = p ++ x :: y :: q →
      unvisitedNeighbors g x p ≠ [] →
      y ∈ unvisitedNeighbors g x p ∧ ∀ w ∈ unvisitedNeighbors g x p, y ≤ w) ∧
    (∀ p x, dfsList g s = p ++ [x] → unvisitedNeighbors g x p = []) := by
  refine ⟨⟨?_, mem_reachSet hs⟩, (dfsList_order_facts hs).1,
    (dfsList_order_facts hs).2⟩
  rw [← dfsList_toFinset hs, List.toFinset_card_of_nodup (dfsList_nodup hs)]

theorem C6_dfs_order_and_component_witness :
    0 < (⟨3, false, [[0,1,1],[0,0,0],[0,0,0]]⟩ : Graph).numVertices ∧
    (dfsList (⟨3, false, [[0,1,1],[0,0,0],[0,0,0]]⟩ : Graph) 0).length
      = (reachSet (⟨3, false, [[0,1,1],[0,0,0],[0,0,0]]⟩ : Graph) 0).card :=
  ⟨by decide,
    (C6_dfs_order_and_component ⟨3, false, [[0,1,1],[0,0,0],[0,0,0]]⟩ 0
      (by decide)).1.1⟩

/-- C9: DFS and BFS from the same valid start both visit exactly the vertices
reachable from the start, each exactly once, so the two result lengths are
always equal. -/
theorem C9_dfs_bfs_same_component (g : Graph) (s : Nat) (hs : s < g.numVertices) :
    (∀ v, Reach g s v → (dfsList g s).count v = 1) ∧
    (∀ v ∈ dfsList g s, Reach g s v) ∧
    (∀ v, Reach g s v → (bfsList g s).count v = 1) ∧
    (∀ v ∈ bfsList g s, Reach g s v) ∧
    (dfsList g s).length = (bfsList g s).length := by
  obtain ⟨hbnd, hbmem, _⟩ := bfsList_start_facts hs
  refine ⟨?_, ?_, ?_, ?_, ?_⟩
  · intro v hv
    exact List.count_eq_one_of_mem (dfsList_nodup hs) ((mem_dfsList hs v).mpr hv)
  · intro v hv
    exact (mem_dfsList hs v).mp hv
  · intro v hv
    exact List.count_eq_one_of_mem hbnd ((hbmem v).mpr hv)
  · intro v hv
    exact (hbmem v).mp hv
  · refine length_eq_of_nodup_mem (dfsList_nodup hs) hbnd ?_
    intro x
    rw [mem_dfsList hs x, hbmem x]

theorem C9_dfs_bfs_same_component_witness :
    0 < (⟨3, false, [[0,1,0],[0,0,0],[0,0,0]]⟩ : Graph).numVertices ∧
    (dfsList (⟨3, false, [[0,1,0],[0,0,0],[0,0,0]]⟩ : Graph) 0).length
      = (bfsList (⟨3, false, [[0,1,0],[0,0,0],[0,0,0]]⟩ : Graph) 0).length :=
  ⟨by decide,
    (C9_dfs_bfs_same_component ⟨3, false, [[0,1,0],[0,0,0],[0,0,0]]⟩ 0
      (by decide)).2.2.2.2⟩

/-- C7 counterexample: on the 4-vertex graph with edges 0→1, 0→2, 0→3, 1→3,
the earlier revision (mark at push) visits [0, 1, 2, 3] while the current
revision (mark at pop) visits [0, 1, 3, 2]: the sequences differ. -/
theorem C7_counterexample :
    dfsOldList (⟨4, false, [[0,1,1,1],[0,0,0,1],[0,0,0,0],[0,0,0,0]]⟩ : Graph) 0
      ≠ dfsList (⟨4, false, [[0,1,1,1],[0,0,0,1],[0,0,0,0],[0,0,0,0]]⟩ : Graph) 0
    := by decide

/-- C7 (amended): the two revisions of the depth-first traversal visit exactly
the same set of vertices (hence sequences of equal length), though the order
may differ. -/
theorem C7_both_revisions_same_set (g : Graph) (s : Nat) (hs : s < g.numVertices) :
    (∀ x, x ∈ dfsOldList g s ↔ x ∈ dfsList g s) ∧
    (dfsOldList g s).length = (dfsList g s).length := by
  obtain ⟨hond, homem, _⟩ := dfsOldList_start_facts hs
  have hmem : ∀ x, x ∈ dfsOldList g s ↔ x ∈ dfsList g s := by
    intro x
    rw [homem x, mem_dfsList hs x]
  exact ⟨hmem, length_eq_of_nodup_mem hond (dfsList_nodup hs) hmem⟩

theorem C7_both_revisions_same_set_witness :
    0 < (⟨4, false, [[0,1,1,1],[0,0,0,1],[0,0,0,0],[0,0,0,0]]⟩ : Graph).numVertices ∧
    (dfsOldList (⟨4, false, [[0,1,1,1],[0,0,0,1],[0,0,0,0],[0,0,0,0]]⟩ : Graph) 0).length
      = (dfsList (⟨4, false, [[0,1,1,1],[0,0,0,1],[0,0,0,0],[0,0,0,0]]⟩ : Graph) 0).length :=
  ⟨by decide,
    (C7_both_revisions_same_set ⟨4, false, [[0,1,1,1],[0,0,0,1],[0,0,0,0],[0,0,0,0]]⟩ 0
      (by decide)).2⟩

/-- C10: if `isStronglyConnected()` is true then
`areVerticesStronglyConnected(u, v)` is true for every pair of valid
vertices. -/
theorem C10_strong_implies_pairwise (g : Graph) (u v : Nat)
    (hsc : isStronglyConnected g = true)
    (hu : u < g.numVertices) (hv : v < g.numVertices) :
    areVerticesStronglyConnected g u v = .ok true := by
  have hall : ∀ i, i < g.numVertices → (dfsList g i).length = g.numVertices := by
    intro i hi
    have := List.all_eq_true.mp hsc i (List.mem_range.mpr hi)
    have hge : ¬((dfsList g i).length < g.numVertices) := by simpa using this
    have hle := dfsList_length_le hi
    omega
  have h1 : v ∈ dfsList g u := dfsList_full_of_length hu (hall u hu) v hv
  have h2 : u ∈ dfsList g v := dfsList_full_of_length hv (hall v hv) u hu
  simp [areVerticesStronglyConnected, validVertex, hu, hv, h1, h2]

theorem C10_strong_implies_pairwise_witness :
    isStronglyConnected (⟨2, false, [[0,1],[1,0]]⟩ : Graph) = true ∧
    0 < (2:Nat) ∧ 1 < (2:Nat) ∧
    areVerticesStronglyConnected (⟨2, false, [[0,1],[1,0]]⟩ : Graph) 0 1
      = .ok true :=
  ⟨by decide, by decide, by decide,
    C10_strong_implies_pairwise ⟨2, false, [[0,1],[1,0]]⟩ 0 1 (by decide)
      (by decide) (by decide)⟩

lemma mem_pendingInDeg {g : Graph} {P : List Nat} {v u : Nat} :
    u ∈ pendingInDeg g P v ↔
      u < g.numVertices ∧ edgeVal g u v ≠ 0 ∧ u ∉ P := by
  simp [pendingInDeg, Finset.mem_filter, Finset.mem_range, and_assoc]

lemma length_le_of_nodup_lt {l : List Nat} {n : Nat} (hnd : l.Nodup)
    (hlt : ∀ x ∈ l, x < n) : l.length ≤ n := by
  rw [← List.toFinset_card_of_nodup hnd]
  have h : l.toFinset ⊆ Finset.range n := by
    intro x hx
    exact Finset.mem_range.mpr (hlt x (List.mem_toFinset.mp hx))
  have := Finset.card_le_card h
  simpa using this

/-- Main invariant lemma for the elimination loop. -/
lemma kahnLoop_spec (g : Graph) :
    ∀ (fuel : Nat) (deg : Nat → Int) (q P : List Nat),
    (P ++ q).Nodup →
    (∀ x ∈ P ++ q, x < g.numVertices) →
    (∀ v, v < g.numVertices → deg v = ((pendingInDeg g P v).card : Int)) →
    (∀ v ∈ q, ∀ u, adjacent g u v → u ∈ P) →
    (∀ v, v < g.numVertices → v ∉ P → v ∉ q →
      ∃ u, adjacent g u v ∧ u ∉ P) →
    (∀ u w, adjacent g u w → w ∈ P →
      u ∈ P ∧ P.indexOf u < P.indexOf w) →
    g.numVertices - P.length ≤ fuel →
    (∀ x ∈ kahnLoop g fuel deg q, x < g.numVertices) ∧
    (P ++ kahnLoop g fuel deg q).Nodup ∧
    (∀ x ∈ q, x ∈ kahnLoop g fuel deg q) ∧
    (∀ u w, adjacent g u w → w ∈ P ++ kahnLoop g fuel deg q →
      u ∈ P ++ kahnLoop g fuel deg q ∧
        (P ++ kahnLoop g fuel deg q).indexOf u
          < (P ++ kahnLoop g fuel deg q).indexOf w) ∧
    (∀ v, v < g.numVertices → v ∉ P ++ kahnLoop g fuel deg q →
      ∃ u, adjacent g u v ∧ u ∉ P ++ kahnLoop g fuel deg q) := by
  intro fuel
  induction fuel with
  | zero =>
      intro deg q P h1 h2 h3 h4 h5 h6 hfuel
      cases q with
      | nil =>
          refine ⟨by simp [kahnLoop], by simpa [kahnLoop] using h1, by simp, ?_, ?_⟩
          · intro u w hadj hw
            simp only [kahnLoop, List.append_nil] at hw ⊢
            exact h6 u w hadj hw
          · intro v hv hvP
            simp only [kahnLoop, List.append_nil] at hvP ⊢
            obtain ⟨u, hadj, huP⟩ := h5 v hv hvP (by simp)
            exact ⟨u, hadj, huP⟩
      | cons v t =>
          exfalso
          have hlen := length_le_of_nodup_lt h1 h2
          simp only [List.length_append, List.length_cons] at hlen
          omega
  | succ f ih =>
      intro deg q P h1 h2 h3 h4 h5 h6 hfuel
      cases q with
      | nil =>
          refine ⟨by simp [kahnLoop], by simpa [kahnLoop] using h1, by simp, ?_, ?_⟩
          · intro u w hadj hw
            simp only [kahnLoop, List.append_nil] at hw ⊢
            exact h6 u w hadj hw
          · intro v hv hvP
            simp only [kahnLoop, List.append_nil] at hvP ⊢
            obtain ⟨u, hadj, huP⟩ := h5 v hv hvP (by simp)
            exact ⟨u, hadj, huP⟩
      | cons v t =>
          have hvn : v < g.numVertices :=
            h2 v (by simp)
          have hndP : P.Nodup := (List.nodup_append.mp h1).1
          have hndq : (v :: t).Nodup := (List.nodup_append.mp h1).2.1
          have hdisj : P.Disjoint (v :: t) := (List.nodup_append.mp h1).2.2
          have hvP : v ∉ P := fun hvP => hdisj hvP (by simp)
          -- every queued vertex has pending in-degree zero
          have hqdeg : ∀ x ∈ v :: t, deg x = 0 := by
            intro x hx
            have hxn : x < g.numVertices := h2 x (List.mem_append_right _ hx)
            have hempty : pendingInDeg g P x = ∅ := by
              rw [Finset.eq_empty_iff_forall_not_mem]
              intro u hu
              obtain ⟨hun, hue, huP⟩ := mem_pendingInDeg.mp hu
              exact huP (h4 x hx u ⟨hun, hxn, hue⟩)
            rw [h3 x hxn, hempty]
            simp
          set fresh := (getNeighbors g v).filter (fun w => deg w - 1 == 0)
            with hfreshdef
          have hfresh_mem : ∀ w, w ∈ fresh ↔
              (w < g.numVertices ∧ edgeVal g v w ≠ 0 ∧ deg w = 1) := by
            intro w
            rw [hfreshdef, List.mem_filter, mem_getNeighbors]
            constructor
            · rintro ⟨⟨hwn, hwe⟩, hbeq⟩
              have hz : deg w - 1 = 0 := by simpa using hbeq
              exact ⟨hwn, hwe, by omega⟩
            · rintro ⟨hwn, hwe, hdeg⟩
              refine ⟨⟨hwn, hwe⟩, ?_⟩
              simp [hdeg]
          -- popped vertices have pending in-degree zero, so fresh ones are new
          have hPdeg : ∀ x ∈ P, x < g.numVertices → deg x = 0 := by
            intro x hx hxn
            have hempty : pendingInDeg g P x = ∅ := by
              rw [Finset.eq_empty_iff_forall_not_mem]
              intro u hu
              obtain ⟨hun, hue, huP⟩ := mem_pendingInDeg.mp hu
              exact huP (h6 u x ⟨hun, hxn, hue⟩ hx).1
            rw [h3 x hxn, hempty]
            simp
          have hfresh_notP : ∀ w ∈ fresh, w ∉ P := by
            intro w hw hwP
            obtain ⟨hwn, _, hdeg⟩ := (hfresh_mem w).mp hw
            rw [hPdeg w hwP hwn] at hdeg
            exact absurd hdeg (by norm_num)
          have hfresh_notq : ∀ w ∈ fresh, w ∉ v :: t := by
            intro w hw hwq
            obtain ⟨_, _, hdeg⟩ := (hfresh_mem w).mp hw
            rw [hqdeg w hwq] at hdeg
            exact absurd hdeg (by norm_num)
          have hfresh_nd : fresh.Nodup := (getNeighbors_nodup g v).filter _
          -- the new state
          have h1' : ((P ++ [v]) ++ (t ++ fresh)).Nodup := by
            have hA : ((P ++ [v]) ++ t).Nodup := by
              have : (P ++ [v]) ++ t = P ++ v :: t := by simp
              rw [this]
              exact h1
            rw [List.nodup_append] at hA ⊢
            refine ⟨hA.1, ?_, ?_⟩
            · rw [List.nodup_append]
              refine ⟨hA.2.1, hfresh_nd, ?_⟩
              intro x hx hx'
              exact hfresh_notq x hx' (List.mem_cons_of_mem v hx)
            · intro x hx hx'
              rcases List.mem_append.mp hx' with hxt | hxf
              · exact hA.2.2 hx hxt
              · rcases List.mem_append.mp hx with hxP | hxv
                · exact hfresh_notP x hxf hxP
                · have : x = v := by simpa using hxv
                  subst this
                  exact hfresh_notq x hxf (by simp)
          have h2' : ∀ x ∈ (P ++ [v]) ++ (t ++ fresh), x < g.numVertices := by
            intro x hx
            rcases List.mem_append.mp hx with hxa | hxb
            · rcases List.mem_append.mp hxa with hxP | hxv
              · exact h2 x (List.mem_append_left _ hxP)
              · have : x = v := by simpa using hxv
                subst this
                exact hvn
            · rcases List.mem_append.mp hxb with hxt | hxf
              · exact h2 x (List.mem_append_right _ (List.mem_cons_of_mem v hxt))
              · exact ((hfresh_mem x).mp hxf).1
          have h3' : ∀ w, w < g.numVertices →
              (if w < g.numVertices ∧ edgeVal g v w ≠ 0 then deg w - 1
                else deg w)
              = ((pendingInDeg g (P ++ [v]) w).card : Int) := by
            intro w hwn
            by_cases hedge : edgeVal g v w ≠ 0
            · rw [if_pos ⟨hwn, hedge⟩]
              have hvmem : v ∈ pendingInDeg g P w :=
                mem_pendingInDeg.mpr ⟨hvn, hedge, hvP⟩
              have hset : pendingInDeg g (P ++ [v]) w
                  = (pendingInDeg g P w).erase v := by
                ext u
                rw [Finset.mem_erase, mem_pendingInDeg, mem_pendingInDeg]
                simp only [List.mem_append, List.mem_singleton]
                tauto
              rw [hset, Finset.card_erase_of_mem hvmem, h3 w hwn]
              have hpos : 1 ≤ (pendingInDeg g P w).card :=
                Finset.card_pos.mpr ⟨v, hvmem⟩
              omega
            · rw [if_neg (by tauto)]
              have hset : pendingInDeg g (P ++ [v]) w = pendingInDeg g P w := by
                ext u
                rw [mem_pendingInDeg, mem_pendingInDeg]
                simp only [List.mem_append, List.mem_singleton]
                constructor
                · rintro ⟨hun, hue, hP⟩
                  exact ⟨hun, hue, fun h => hP (Or.inl h)⟩
                · rintro ⟨hun, hue, hP⟩
                  refine ⟨hun, hue, ?_⟩
                  rintro (h | rfl)
                  · exact hP h
                  · exact hedge hue
              rw [hset]
              exact h3 w hwn
          have h4' : ∀ x ∈ t ++ fresh, ∀ u, adjacent g u x → u ∈ P ++ [v] := by
            intro x hx u hadj
            rcases List.mem_append.mp hx with hxt | hxf
            · exact List.mem_append_left _
                (h4 x (List.mem_cons_of_mem v hxt) u hadj)
            · obtain ⟨hxn, hxe, hxdeg⟩ := (hfresh_mem x).mp hxf
              have hcard : (pendingInDeg g P x).card = 1 := by
                have := h3 x hxn
                rw [hxdeg] at this
                exact_mod_cast this.symm
              obtain ⟨a, ha⟩ := Finset.card_eq_one.mp hcard
              have hvmem : v ∈ pendingInDeg g P x :=
                mem_pendingInDeg.mpr ⟨hvn, hxe, hvP⟩
              have hav : a = v := by
                rw [ha] at hvmem
                exact (Finset.mem_singleton.mp hvmem).symm
              by_cases huP : u ∈ P
              · exact List.mem_append_left _ huP
              · have humem : u ∈ pendingInDeg g P x :=
                  mem_pendingInDeg.mpr ⟨hadj.1, hadj.2.2, huP⟩
                rw [ha, hav] at humem
                have : u = v := Finset.mem_singleton.mp humem
                subst this
                exact List.mem_append_right _ (by simp)
          have h5' : ∀ w, w < g.numVertices → w ∉ P ++ [v] →
              w ∉ t ++ fresh → ∃ u, adjacent g u w ∧ u ∉ P ++ [v] := by
            intro w hwn hwP' hwq'
            have hwP : w ∉ P := fun h => hwP' (List.mem_append_left _ h)
            have hwv : w ≠ v := fun h => hwP' (List.mem_append_right _ (by simp [h]))
            have hwt : w ∉ t := fun h => hwq' (List.mem_append_left _ h)
            have hwfresh : w ∉ fresh := fun h => hwq' (List.mem_append_right _ h)
            obtain ⟨u, hadj, huP⟩ := h5 w hwn hwP (by
              intro h
              rcases List.mem_cons.mp h with h' | h'
              · exact hwv h'
              · exact hwt h')
            by_cases huv : u = v
            · subst huv
              have hedgeuw : edgeVal g u w ≠ 0 := hadj.2.2
              have hnotone : deg w ≠ 1 := by
                intro h
                exact hwfresh ((hfresh_mem w).mpr ⟨hwn, hedgeuw, h⟩)
              have hcard : deg w = ((pendingInDeg g P w).card : Int) := h3 w hwn
              have humem : u ∈ pendingInDeg g P w :=
                mem_pendingInDeg.mpr ⟨hvn, hedgeuw, hvP⟩
              have hpos : 1 ≤ (pendingInDeg g P w).card :=
                Finset.card_pos.mpr ⟨u, humem⟩
              have hgt : 1 < (pendingInDeg g P w).card := by
                rcases Nat.lt_or_ge 1 (pendingInDeg g P w).card with h | h
                · exact h
                · exfalso
                  have : (pendingInDeg g P w).card = 1 := by omega
                  rw [this] at hcard
                  exact hnotone (by exact_mod_cast hcard)
              obtain ⟨a, hamem, hane⟩ :=
                Finset.exists_ne_of_one_lt_card hgt u
              obtain ⟨han, hae, haP⟩ := mem_pendingInDeg.mp hamem
              refine ⟨a, ⟨han, hwn, hae⟩, ?_⟩
              intro h
              rcases List.mem_append.mp h with h' | h'
              · exact haP h'
              · exact hane (by simpa using h')
            · refine ⟨u, hadj, ?_⟩
              intro h
              rcases List.mem_append.mp h with h' | h'
              · exact huP h'
              · exact huv (by simpa using h')
          have h6' : ∀ u w, adjacent g u w → w ∈ P ++ [v] →
              u ∈ P ++ [v] ∧ (P ++ [v]).indexOf u < (P ++ [v]).indexOf w := by
            intro u w hadj hw
            rcases List.mem_append.mp hw with hwP | hwv
            · obtain ⟨huP, hidx⟩ := h6 u w hadj hwP
              refine ⟨List.mem_append_left _ huP, ?_⟩
              rw [List.indexOf_append_of_mem huP, List.indexOf_append_of_mem hwP]
              exact hidx
            · have hwv' : w = v := by simpa using hwv
              subst hwv'
              have huP : u ∈ P := h4 w (by simp) u hadj
              refine ⟨List.mem_append_left _ huP, ?_⟩
              rw [List.indexOf_append_of_mem huP,
                List.indexOf_append_of_not_mem hvP]
              have := List.indexOf_lt_length.mpr huP
              simp only [List.indexOf_cons_self, List.indexOf_nil]
              omega
          have hfuel' : g.numVertices - (P ++ [v]).length ≤ f := by
            simp only [List.length_append, List.length_singleton]
            omega
          obtain ⟨c1, c2, c3, c4, c5⟩ :=
            ih _ (t ++ fresh) (P ++ [v]) h1' h2' h3' h4' h5' h6' hfuel'
          have heq : kahnLoop g (f + 1) deg (v :: t)
              = v :: kahnLoop g f
                  (fun w => if w < g.numVertices ∧ edgeVal g v w ≠ 0
                    then deg w - 1 else deg w)
                  (t ++ fresh) := by
            rw [hfreshdef]
            simp [kahnLoop]
          rw [heq]
          set r' := kahnLoop g f
            (fun w => if w < g.numVertices ∧ edgeVal g v w ≠ 0
              then deg w - 1 else deg w) (t ++ fresh) with hr'
          have hassoc : P ++ v :: r' = (P ++ [v]) ++ r' := by simp
          refine ⟨?_, ?_, ?_, ?_, ?_⟩
          · intro x hx
            rcases List.mem_cons.mp hx with rfl | hx'
            · exact hvn
            · exact c1 x hx'
          · rw [hassoc]
            exact c2
          · intro x hx
            rcases List.mem_cons.mp hx with rfl | hx'
            · exact List.mem_cons_self _ _
            · exact List.mem_cons_of_mem v (c3 x (List.mem_append_left _ hx'))
          · intro u w hadj hw
            rw [hassoc] at hw ⊢
            exact c4 u w hadj hw
          · intro w hwn hw
            rw [hassoc] at hw ⊢
            exact c5 w hwn hw

lemma kahnRun_facts (g : Graph) :
    (∀ x ∈ kahnRun g, x < g.numVertices) ∧
    (kahnRun g).Nodup ∧
    (∀ u w, adjacent g u w → w ∈ kahnRun g →
      u ∈ kahnRun g ∧ (kahnRun g).indexOf u < (kahnRun g).indexOf w) ∧
    (∀ v, v < g.numVertices → v ∉ kahnRun g →
      ∃ u, adjacent g u v ∧ u ∉ kahnRun g) := by
  have h1 : (([] : List Nat) ++ kahnSeeds g).Nodup := by
    simp only [List.nil_append]
    exact (List.nodup_range g.numVertices).filter _
  have h2 : ∀ x ∈ ([] : List Nat) ++ kahnSeeds g, x < g.numVertices := by
    intro x hx
    simp only [List.nil_append, kahnSeeds, List.mem_filter, List.mem_range] at hx
    exact hx.1
  have h3 : ∀ v, v < g.numVertices →
      initInDeg g v = ((pendingInDeg g [] v).card : Int) := by
    intro v hv
    unfold initInDeg pendingInDeg
    congr 2
    apply Finset.filter_congr
    intro u _
    simp
  have h4 : ∀ v ∈ ([] : List Nat) ++ kahnSeeds g, ∀ u, adjacent g u v →
      u ∈ ([] : List Nat) := by
    intro v hv u hadj
    simp only [List.nil_append, kahnSeeds, List.mem_filter, List.mem_range] at hv
    obtain ⟨hvn, hbeq⟩ := hv
    have hzero : initInDeg g v = 0 := by simpa using hbeq
    have hcard : ((Finset.range g.numVertices).filter
        (fun u => edgeVal g u v ≠ 0)).card = 0 := by
      unfold initInDeg at hzero
      exact_mod_cast hzero
    have hempty := Finset.card_eq_zero.mp hcard
    exfalso
    have humem : u ∈ (Finset.range g.numVertices).filter
        (fun u => edgeVal g u v ≠ 0) := by
      rw [Finset.mem_filter, Finset.mem_range]
      exact ⟨hadj.1, hadj.2.2⟩
    rw [hempty] at humem
    simp at humem
  have h5 : ∀ v, v < g.numVertices → v ∉ ([] : List Nat) →
      v ∉ ([] : List Nat) ++ kahnSeeds g →
      ∃ u, adjacent g u v ∧ u ∉ ([] : List Nat) := by
    intro v hvn _ hvseeds
    simp only [List.nil_append, kahnSeeds, List.mem_filter, List.mem_range,
      not_and] at hvseeds
    have hnz : initInDeg g v ≠ 0 := by
      intro h
      exact absurd (by simpa using h) (by simpa using hvseeds hvn)
    have hpos : ((Finset.range g.numVertices).filter
        (fun u => edgeVal g u v ≠ 0)).Nonempty := by
      rw [Finset.nonempty_iff_ne_empty]
      intro h
      apply hnz
      unfold initInDeg
      rw [h]
      simp
    obtain ⟨u, hu⟩ := hpos
    rw [Finset.mem_filter, Finset.mem_range] at hu
    exact ⟨u, ⟨hu.1, hvn, hu.2⟩, by simp⟩
  have h6 : ∀ u w, adjacent g u w → w ∈ ([] : List Nat) →
      u ∈ ([] : List Nat) ∧
        ([] : List Nat).indexOf u < ([] : List Nat).indexOf w := by
    intro u w _ hw
    simp at hw
  have hfuel : g.numVertices - ([] : List Nat).length ≤ g.numVertices := by simp
  obtain ⟨c1, c2, c3, c4, c5⟩ := kahnLoop_spec g g.numVertices (initInDeg g)
    (kahnSeeds g) [] h1 h2 h3 h4 h5 h6 hfuel
  simp only [List.nil_append] at c2 c4 c5
  exact ⟨c1, c2, c4, c5⟩

lemma full_of_nodup_length {l : List Nat} {n : Nat} (hnd : l.Nodup)
    (hlt : ∀ x ∈ l, x < n) (hlen : l.length = n) : ∀ v, v < n → v ∈ l := by
  have h1 : l.toFinset ⊆ Finset.range n := by
    intro x hx
    exact Finset.mem_range.mpr (hlt x (List.mem_toFinset.mp hx))
  have hcard : (Finset.range n).card ≤ l.toFinset.card := by
    rw [List.toFinset_card_of_nodup hnd, hlen, Finset.card_range]
  have heq := Finset.eq_of_subset_of_card_le h1 hcard
  intro v hv
  rw [← List.mem_toFinset, heq]
  exact Finset.mem_range.mpr hv

lemma hasCycle_false_iff {g : Graph} :
    hasCycle g = false ↔ (kahnRun g).length = g.numVertices := by
  simp [hasCycle]

lemma hasCycle_true_iff {g : Graph} :
    hasCycle g = true ↔ (kahnRun g).length ≠ g.numVertices := by
  simp [hasCycle]

lemma topo_of_complete {g : Graph}
    (hlen : (kahnRun g).length = g.numVertices) :
    IsTopoOrder g (kahnRun g) := by
  obtain ⟨c1, c2, c4, _⟩ := kahnRun_facts g
  refine ⟨c2, ?_, ?_⟩
  · intro v
    exact ⟨fun hv => c1 v hv, fun hv => full_of_nodup_length c2 c1 hlen v hv⟩
  · intro u v hadj
    exact (c4 u v hadj (full_of_nodup_length c2 c1 hlen v hadj.2.1)).2

lemma reach_indexOf_le {g : Graph} {ord : List Nat} (hord : IsTopoOrder g ord)
    {a b : Nat} (h : Reach g a b) : ord.indexOf a ≤ ord.indexOf b := by
  induction h with
  | refl => exact le_refl _
  | tail _ hadj ih => exact le_trans ih (le_of_lt (hord.2.2 _ _ hadj))

lemma no_cycle_of_topo {g : Graph} {ord : List Nat} (hord : IsTopoOrder g ord) :
    ¬ ∃ u w, adjacent g u w ∧ Reach g w u := by
  rintro ⟨u, w, hadj, hr⟩
  have h1 := hord.2.2 u w hadj
  have h2 := reach_indexOf_le hord hr
  omega

lemma stuck_set_of_incomplete {g : Graph}
    (hlen : (kahnRun g).length ≠ g.numVertices) :
    ∃ S : Finset Nat, S.Nonempty ∧ ∀ v ∈ S, ∃ u ∈ S, adjacent g u v := by
  obtain ⟨c1, c2, _, c5⟩ := kahnRun_facts g
  refine ⟨(Finset.range g.numVertices).filter (fun v => v ∉ kahnRun g), ?_, ?_⟩
  · rw [Finset.filter_nonempty_iff]
    by_contra hempty
    push_neg at hempty
    have hfull : ∀ v, v < g.numVertices → v ∈ kahnRun g := by
      intro v hv
      exact hempty v (Finset.mem_range.mpr hv)
    have hge : g.numVertices ≤ (kahnRun g).length := by
      have hsub : Finset.range g.numVertices ⊆ (kahnRun g).toFinset := by
        intro x hx
        exact List.mem_toFinset.mpr (hfull x (Finset.mem_range.mp hx))
      have := Finset.card_le_card hsub
      rwa [Finset.card_range, List.toFinset_card_of_nodup c2] at this
    have hle := length_le_of_nodup_lt c2 c1
    omega
  · intro v hv
    rw [Finset.mem_filter, Finset.mem_range] at hv
    obtain ⟨u, hadj, hurun⟩ := c5 v hv.1 hv.2
    refine ⟨u, ?_, hadj⟩
    rw [Finset.mem_filter, Finset.mem_range]
    exact ⟨hadj.1, hurun⟩

lemma cycle_of_stuck {g : Graph} {S : Finset Nat} (hne : S.Nonempty)
    (hclosed : ∀ v ∈ S, ∃ u ∈ S, adjacent g u v) :
    ∃ u w, adjacent g u w ∧ Reach g w u := by
  classical
  obtain ⟨v₀, hv₀⟩ := hne
  let step : {v // v ∈ S} → {v // v ∈ S} := fun x =>
    ⟨Classical.choose (hclosed x.1 x.2),
     (Classical.choose_spec (hclosed x.1 x.2)).1⟩
  let seq : Nat → {v // v ∈ S} := fun k => step^[k] ⟨v₀, hv₀⟩
  have hadj : ∀ k, adjacent g (seq (k + 1)).1 (seq k).1 := by
    intro k
    have hs : seq (k + 1) = step (seq k) := Function.iterate_succ_apply' step k _
    rw [hs]
    exact (Classical.choose_spec (hclosed (seq k).1 (seq k).2)).2
  have hreach : ∀ m k, Reach g (seq (m + k)).1 (seq m).1 := by
    intro m k
    induction k with
    | zero => exact Relation.ReflTransGen.refl
    | succ p ihp =>
        have : m + (p + 1) = (m + p) + 1 := by omega
        rw [this]
        exact Relation.ReflTransGen.head (hadj (m + p)) ihp
  have hmaps : ∀ k ∈ Finset.range (S.card + 1), (seq k).1 ∈ S := by
    intro k _
    exact (seq k).2
  have hcard : S.card < (Finset.range (S.card + 1)).card := by
    rw [Finset.card_range]
    omega
  obtain ⟨i, hi, j, hj, hij, heq⟩ :=
    Finset.exists_ne_map_eq_of_card_lt_of_maps_to hcard hmaps
  have key : ∀ a b : Nat, a < b → (seq a).1 = (seq b).1 →
      ∃ u w, adjacent g u w ∧ Reach g w u := by
    intro a b hab habeq
    refine ⟨(seq (a + 1)).1, (seq a).1, hadj a, ?_⟩
    have h1 : Reach g (seq ((a + 1) + (b - a - 1))).1 (seq (a + 1)).1 :=
      hreach (a + 1) (b - a - 1)
    have h2 : (a + 1) + (b - a - 1) = b := by omega
    rw [h2] at h1
    rw [habeq]
    exact h1
  rcases Nat.lt_or_ge i j with hlt | hge
  · exact key i j hlt heq
  · have hlt : j < i := by omega
    exact key j i hlt heq.symm

/-- C5: `hasCycle()` is false iff the vertex set admits a total topological
order consistent with all edges; equivalently it is true exactly when the
graph contains a directed cycle (an edge `u → w` with `w` reaching back to
`u`, covering self-loops). -/
theorem C5_hasCycle_characterization (g : Graph) :
    (hasCycle g = false ↔ ∃ ord, IsTopoOrder g ord) ∧
    (hasCycle g = true ↔ ∃ u w, adjacent g u w ∧ Reach g w u) := by
  have hA : hasCycle g = false → ∃ ord, IsTopoOrder g ord :=
    fun h => ⟨kahnRun g, topo_of_complete (hasCycle_false_iff.mp h)⟩
  have hD : hasCycle g = true → ∃ u w, adjacent g u w ∧ Reach g w u := by
    intro h
    obtain ⟨S, hne, hclosed⟩ := stuck_set_of_incomplete (hasCycle_true_iff.mp h)
    exact cycle_of_stuck hne hclosed
  constructor
  · refine ⟨hA, ?_⟩
    rintro ⟨ord, hord⟩
    by_contra hfalse
    have htrue : hasCycle g = true := by
      cases h : hasCycle g
      · exact absurd h hfalse
      · rfl
    exact no_cycle_of_topo hord (hD htrue)
  · refine ⟨hD, ?_⟩
    rintro ⟨u, w, hadj, hr⟩
    by_contra htrue
    have hfalse : hasCycle g = false := by
      cases h : hasCycle g
      · rfl
      · exact absurd h htrue
    obtain ⟨ord, hord⟩ := hA hfalse
    exact no_cycle_of_topo hord ⟨u, w, hadj, hr⟩

lemma isConnected_of_one {g : Graph} (hn : g.numVertices = 1) :
    isConnected g = true := by
  have hs : 0 < g.numVertices := by omega
  have h0 : 0 ∈ dfsList g 0 := (mem_dfsList hs 0).mpr Relation.ReflTransGen.refl
  have hpos : 1 ≤ (dfsList g 0).length :=
    List.length_pos.mpr (List.ne_nil_of_mem h0)
  have hle : (dfsList g 0).length ≤ g.numVertices := dfsList_length_le hs
  have hlen : (dfsList g 0).length = 1 := by omega
  unfold isConnected
  rw [hn]
  simp [hlen]

lemma hasCycle_of_one_selfloop {g : Graph} (hn : g.numVertices = 1)
    (hloop : edgeVal g 0 0 ≠ 0) : hasCycle g = true := by
  have hseeds : kahnSeeds g = [] := by
    unfold kahnSeeds
    rw [hn]
    have hdeg : initInDeg g 0 = 1 := by
      unfold initInDeg
      rw [hn]
      rw [show Finset.range 1 = {0} from rfl, Finset.filter_singleton]
      rw [if_pos hloop]
      simp
    simp [List.range, List.range.loop, hdeg]
  rw [hasCycle_true_iff]
  unfold kahnRun
  rw [hseeds, hn]
  simp [kahnLoop]

/-- C4: the one-vertex special cases of `findHamiltonianCycles()` and the two
pruning checks (not connected, or no cycle) each produce their prescribed
result without entering the backtracking search. -/
theorem C4_hamiltonian_edge_cases (g : Graph) :
    (g.numVertices = 1 → edgeVal g 0 0 ≠ 0 →
      findHamiltonianCycles g = [[0, 0]]) ∧
    (g.numVertices = 1 → edgeVal g 0 0 = 0 →
      findHamiltonianCycles g = []) ∧
    (isConnected g = false → findHamiltonianCycles g = []) ∧
    (hasCycle g = false → findHamiltonianCycles g = []) := by
  refine ⟨?_, ?_, ?_, ?_⟩
  · intro hn hloop
    unfold findHamiltonianCycles
    rw [if_pos ⟨hn, hloop⟩]
  · intro hn hloop
    unfold findHamiltonianCycles
    rw [if_neg (by tauto), if_pos hn]
  · intro hconn
    have hn : g.numVertices ≠ 1 := by
      intro h
      rw [isConnected_of_one h] at hconn
      simp at hconn
    unfold findHamiltonianCycles
    rw [if_neg (by tauto), if_neg hn, if_pos hconn]
  · intro hcyc
    by_cases hn : g.numVertices = 1
    · by_cases hloop : edgeVal g 0 0 ≠ 0
      · exact absurd hcyc (by rw [hasCycle_of_one_selfloop hn hloop]; simp)
      · unfold findHamiltonianCycles
        rw [if_neg (by tauto), if_pos hn]
    · by_cases hconn : isConnected g = false
      · unfold findHamiltonianCycles
        rw [if_neg (by tauto), if_neg hn, if_pos hconn]
      · unfold findHamiltonianCycles
        rw [if_neg (by tauto), if_neg hn, if_neg hconn, if_pos hcyc]

theorem C4_hamiltonian_edge_cases_witness :
    ((⟨1, false, [[1]]⟩ : Graph).numVertices = 1 ∧
      edgeVal (⟨1, false, [[1]]⟩ : Graph) 0 0 ≠ 0) ∧
    findHamiltonianCycles (⟨1, false, [[1]]⟩ : Graph) = [[0, 0]] :=
  ⟨⟨by decide, by decide⟩,
    (C4_hamiltonian_edge_cases ⟨1, false, [[1]]⟩).1 (by decide) (by decide)⟩

/-- C1: the precondition checks of `minimumSpanningTree()` pass on the
2-vertex weighted graph whose only edge is the directed 1→0 (its DFS from
vertex 1 reaches everything, so `isConnected()` is true), yet Prim started at
vertex 0 finds no second vertex with a finite key: the selection leaves
`u = -1` and the C++ writes `inMST[-1]`, out of bounds.  No spanning tree is
returned. -/
theorem C1_prim_out_of_bounds_eval :
    (⟨2, true, [[0,0],[5,0]]⟩ : Graph).numVertices = 2 ∧
    isConnected (⟨2, true, [[0,0],[5,0]]⟩ : Graph) = true ∧
    (⟨2, true, [[0,0],[5,0]]⟩ : Graph).isWeighted = true ∧
    minimumSpanningTree (⟨2, true, [[0,0],[5,0]]⟩ : Graph)
      = PrimRes.outOfBounds := by decide

/-- C3 counterexample: on the zero-vertex graph, `minimumSpanningTree()`
returns an empty default graph instead of failing with a precondition
error. -/
theorem C3_counterexample :
    minimumSpanningTree (mkGraph 0 true) = PrimRes.ok (mkGraph 0 false) ∧
    minimumSpanningTree (mkGraph 0 true)
      ≠ PrimRes.err GErr.preconditionError := by decide

/-- C3 (amended): on a graph with at least one vertex,
`minimumSpanningTree()` fails with a PreconditionError when the graph is not
connected, and also when it is connected but the weighted flag is false; the
zero-vertex graph instead returns an empty graph without error. -/
theorem C3_mst_preconditions (g : Graph) :
    (g.numVertices = 0 → minimumSpanningTree g = PrimRes.ok (mkGraph 0 false)) ∧
    (g.numVertices ≠ 0 → isConnected g = false →
      minimumSpanningTree g = PrimRes.err GErr.preconditionError) ∧
    (g.numVertices ≠ 0 → isConnected g = true → g.isWeighted = false →
      minimumSpanningTree g = PrimRes.err GErr.preconditionError) := by
  refine ⟨?_, ?_, ?_⟩
  · intro hn
    unfold minimumSpanningTree
    rw [if_pos hn]
  · intro hn hconn
    unfold minimumSpanningTree
    rw [if_neg hn, if_pos hconn]
  · intro hn hconn hw
    unfold minimumSpanningTree
    rw [if_neg hn, if_neg (by rw [hconn]; simp), if_pos hw]

theorem C3_mst_preconditions_witness :
    ((⟨2, true, [[0,0],[0,0]]⟩ : Graph).numVertices ≠ 0 ∧
      isConnected (⟨2, true, [[0,0],[0,0]]⟩ : Graph) = false) ∧
    minimumSpanningTree (⟨2, true, [[0,0],[0,0]]⟩ : Graph)
      = PrimRes.err GErr.preconditionError :=
  ⟨⟨by decide, by decide⟩,
    (C3_mst_preconditions ⟨2, true, [[0,0],[0,0]]⟩).2.1 (by decide) (by decide)⟩

lemma mem_lexPermsAux : ∀ (n : Nat) (l p : List Nat), l.length = n →
    (p ∈ lexPermsAux n l ↔ List.Perm p l) := by
  intro n
  induction n with
  | zero =>
      intro l p hl
      have hnil : l = [] := List.length_eq_zero.mp hl
      subst hnil
      simp [lexPermsAux, List.perm_nil]
  | succ m ih =>
      intro l p hl
      rw [lexPermsAux]
      simp only [List.mem_flatMap, List.mem_map]
      constructor
      · rintro ⟨x, hx, q, hq, rfl⟩
        have hlen : (l.erase x).length = m := by
          rw [List.length_erase_of_mem hx, hl]
          omega
        have hperm := (ih (l.erase x) q hlen).mp hq
        exact List.cons_perm_iff_perm_erase.mpr ⟨hx, hperm⟩
      · intro hp
        cases p with
        | nil =>
            exfalso
            have := hp.length_eq
            rw [hl] at this
            simp at this
        | cons x q =>
            obtain ⟨hx, hq⟩ := List.cons_perm_iff_perm_erase.mp hp
            refine ⟨x, hx, q, ?_, rfl⟩
            refine (ih _ q ?_).mpr hq
            rw [List.length_erase_of_mem hx, hl]
            omega

lemma lexPermsAux_sorted : ∀ (n : Nat) (l : List Nat), l.length = n →
    l.Pairwise (· < ·) →
    (lexPermsAux n l).Pairwise (List.Lex (· < ·)) := by
  intro n
  induction n with
  | zero => intro l _ _; simp [lexPermsAux]
  | succ m ih =>
      intro l hl hs
      rw [lexPermsAux, List.pairwise_flatMap]
      constructor
      · intro x hx
        have hlen : (l.erase x).length = m := by
          rw [List.length_erase_of_mem hx, hl]
          omega
        have hrec := ih (l.erase x) hlen (hs.sublist (List.erase_sublist x l))
        exact hrec.map _ (fun p q hpq => List.Lex.cons hpq)
      · refine hs.imp ?_
        intro a b hab p hp q hq
        obtain ⟨p', _, rfl⟩ := List.mem_map.mp hp
        obtain ⟨q', _, rfl⟩ := List.mem_map.mp hq
        exact List.Lex.rel hab

lemma lexPermsAux_length : ∀ (n : Nat) (l : List Nat), l.length = n →
    (lexPermsAux n l).length = Nat.factorial n := by
  intro n
  induction n with
  | zero => intro l _; simp [lexPermsAux, Nat.factorial]
  | succ m ih =>
      intro l hl
      rw [lexPermsAux, List.length_flatMap]
      have hmap : ∀ x ∈ l,
          ((lexPermsAux m (l.erase x)).map (fun p => x :: p)).length
            = Nat.factorial m := by
        intro x hx
        rw [List.length_map]
        refine ih (l.erase x) ?_
        rw [List.length_erase_of_mem hx, hl]
        omega
      calc (l.map (fun x =>
            ((lexPermsAux m (l.erase x)).map (fun p => x :: p)).length)).sum
          = (l.map (fun _ => Nat.factorial m)).sum := by
            congr 1
            exact List.map_congr_left hmap
        _ = l.length * Nat.factorial m := by
            rw [List.map_const', List.sum_replicate, smul_eq_mul]
        _ = Nat.factorial (m + 1) := by
            rw [hl, Nat.factorial_succ]

lemma foldl_tspStep_no_improve (g : Graph) :
    ∀ (L : List (List Nat)) (acc : List Nat × Int),
    (∀ q ∈ L, ¬(pathCost g (tourOf q) < acc.2)) →
    L.foldl (tspStep g) acc = acc := by
  intro L
  induction L with
  | nil => intro acc _; simp
  | cons p L' ih =>
      intro acc hno
      rw [List.foldl_cons]
      have hstep : tspStep g acc p = acc := by
        unfold tspStep
        rw [if_neg (hno p (List.mem_cons_self p L'))]
      rw [hstep]
      exact ih acc (fun q hq => hno q (List.mem_cons_of_mem _ hq))

/-- The fold with strict-less update returns the first tour attaining the
minimum cost, provided some tour beats the initial best distance. -/
lemma foldl_tspStep_argmin (g : Graph) :
    ∀ (L : List (List Nat)) (acc : List Nat × Int),
    (∃ p ∈ L, pathCost g (tourOf p) < acc.2) →
    ∃ L₁ p₀ L₂, L = L₁ ++ p₀ :: L₂ ∧
      L.foldl (tspStep g) acc = (tourOf p₀, pathCost g (tourOf p₀)) ∧
      pathCost g (tourOf p₀) < acc.2 ∧
      (∀ q ∈ L₁, pathCost g (tourOf p₀) < pathCost g (tourOf q)) ∧
      (∀ q ∈ L₂, pathCost g (tourOf p₀) ≤ pathCost g (tourOf q)) := by
  intro L
  induction L with
  | nil =>
      rintro acc ⟨p, hp, _⟩
      simp at hp
  | cons p L' ih =>
      intro acc hex
      by_cases hp : pathCost g (tourOf p) < acc.2
      · have hstep : tspStep g acc p = (tourOf p, pathCost g (tourOf p)) := by
          unfold tspStep
          rw [if_pos hp]
        rw [List.foldl_cons, hstep]
        by_cases himp : ∃ q ∈ L',
            pathCost g (tourOf q) < pathCost g (tourOf p)
        · obtain ⟨L₁, p₀, L₂, heq, hfold, hlt, h₁, h₂⟩ :=
            ih (tourOf p, pathCost g (tourOf p)) (by simpa using himp)
          refine ⟨p :: L₁, p₀, L₂, by simp [heq], hfold, lt_trans hlt hp, ?_, h₂⟩
          intro q hq
          rcases List.mem_cons.mp hq with rfl | hq'
          · exact hlt
          · exact h₁ q hq'
        · push_neg at himp
          rw [foldl_tspStep_no_improve g L' _
            (fun q hq => not_lt.mpr (himp q hq))]
          exact ⟨[], p, L', rfl, rfl, hp, by simp,
            fun q hq => not_lt.mp (fun h => absurd h (by simpa using himp q hq))⟩
      · have hstep : tspStep g acc p = acc := by
          unfold tspStep
          rw [if_neg hp]
        rw [List.foldl_cons, hstep]
        have hex' : ∃ q ∈ L', pathCost g (tourOf q) < acc.2 := by
          obtain ⟨q, hq, hqlt⟩ := hex
          rcases List.mem_cons.mp hq with rfl | hq'
          · exact absurd hqlt hp
          · exact ⟨q, hq', hqlt⟩
        obtain ⟨L₁, p₀, L₂, heq, hfold, hlt, h₁, h₂⟩ := ih acc hex'
        refine ⟨p :: L₁, p₀, L₂, by simp [heq], hfold, hlt, ?_, h₂⟩
        intro q hq
        rcases List.mem_cons.mp hq with rfl | hq'
        · exact lt_of_lt_of_le hlt (not_lt.mp hp)
        · exact h₁ q hq'

lemma mem_tspCandidates {g : Graph} {p : List Nat} :
    p ∈ tspCandidates g ↔
      List.Perm p (List.range' 1 (g.numVertices - 1)) :=
  mem_lexPermsAux _ _ p rfl

lemma wrap32_eq_self {x : Int} (h1 : -2147483648 ≤ x) (h2 : x ≤ intMax) :
    wrap32 x = x := by
  unfold wrap32
  unfold intMax at h2
  have hmod : (x + 2147483648) % 4294967296 = x + 2147483648 :=
    Int.emod_eq_of_lt (by omega) (by omega)
  omega

/-- Folding with wrapping additions agrees with the unbounded sum as long as
all summands are positive and the total stays within `INT_MAX`: no partial
sum can then leave the 32-bit range. -/
lemma foldl_wrap32_eq : ∀ (l : List Int) (acc : Int),
    (∀ x ∈ l, 0 < x) → 0 ≤ acc → acc + l.sum ≤ intMax →
    l.foldl (fun a x => wrap32 (a + x)) acc = acc + l.sum := by
  intro l
  induction l with
  | nil => intro acc _ _ _; simp
  | cons x t ih =>
      intro acc hpos hacc hbound
      have hx : 0 < x := hpos x (List.mem_cons_self x t)
      have htsum : 0 ≤ t.sum :=
        List.sum_nonneg (fun y hy => le_of_lt (hpos y (List.mem_cons_of_mem x hy)))
      rw [List.sum_cons] at hbound
      rw [List.foldl_cons]
      have hwrap : wrap32 (acc + x) = acc + x := by
        refine wrap32_eq_self (by omega) ?_
        unfold intMax at hbound ⊢
        omega
      rw [hwrap, ih (acc + x)
        (fun y hy => hpos y (List.mem_cons_of_mem x hy)) (by omega) (by omega),
        List.sum_cons]
      ring

lemma foldl_add_map {α : Type} : ∀ (l : List α) (f : α → Int) (acc : Int),
    l.foldl (fun a e => a + f e) acc = acc + (l.map f).sum := by
  intro l
  induction l with
  | nil => intro f acc; simp
  | cons x t ih =>
      intro f acc
      rw [List.foldl_cons, ih, List.map_cons, List.sum_cons]
      ring

lemma pathCost_eq_sum (g : Graph) (path : List Nat) :
    pathCost g path
      = ((path.zip path.tail).map (fun e => edgeVal g e.1 e.2)).sum := by
  unfold pathCost
  rw [foldl_add_map]
  ring

/-- Under positive summands and an `INT_MAX` bound on the true cost, the
wrapping 32-bit accumulation of the C++ computes exactly the unbounded
cost. -/
lemma pathCostI32_eq_pathCost (g : Graph) (path : List Nat)
    (hpos : ∀ e ∈ path.zip path.tail, 0 < edgeVal g e.1 e.2)
    (hbound : pathCost g path ≤ intMax) :
    pathCostI32 g path = pathCost g path := by
  have hmap : ∀ x ∈ (path.zip path.tail).map (fun e => edgeVal g e.1 e.2),
      0 < x := by
    intro x hx
    obtain ⟨e, he, rfl⟩ := List.mem_map.mp hx
    exact hpos e he
  have hsum := pathCost_eq_sum g path
  have h1 : pathCostI32 g path
      = ((path.zip path.tail).map (fun e => edgeVal g e.1 e.2)).foldl
          (fun a x => wrap32 (a + x)) 0 := by
    unfold pathCostI32
    rw [List.foldl_map]
  rw [h1, foldl_wrap32_eq _ 0 hmap (le_refl 0) (by rw [← hsum] at *; omega)]
  rw [hsum]
  ring

lemma mem_zip_tail {α : Type} : ∀ (l : List α) (p : α × α),
    p ∈ l.zip l.tail → ∃ l₁ l₂, l = l₁ ++ p.1 :: p.2 :: l₂ := by
  intro l
  induction l with
  | nil => intro p hp; simp at hp
  | cons x t ih =>
      intro p hp
      cases t with
      | nil => simp at hp
      | cons y t' =>
          rw [show (x :: y :: t').tail = y :: t' from rfl,
            List.zip_cons_cons] at hp
          rcases List.mem_cons.mp hp with heq | hp'
          · subst heq
            exact ⟨[], t', by simp⟩
          · obtain ⟨l₁, l₂, heq⟩ :=
              ih p (by rw [show (y :: t').tail = t' from rfl]; exact hp')
            exact ⟨x :: l₁, l₂, by rw [List.cons_append, ← heq]⟩

/-- Every consecutive pair of a candidate tour joins two distinct valid
vertices (so the positivity hypothesis of the weights applies to it). -/
lemma tourOf_pairs {g : Graph} {q : List Nat}
    (hq : List.Perm q (List.range' 1 (g.numVertices - 1)))
    (hn : 3 ≤ g.numVertices) :
    ∀ p ∈ (tourOf q).zip (tourOf q).tail,
      p.1 < g.numVertices ∧ p.2 < g.numVertices ∧ p.1 ≠ p.2 := by
  have hmemq : ∀ x ∈ q, 1 ≤ x ∧ x ≤ g.numVertices - 1 := by
    intro x hx
    have hx' := hq.subset hx
    rw [List.mem_range'_1] at hx'
    omega
  have hq_nodup : q.Nodup := hq.nodup_iff.mpr (List.nodup_range' ..)
  have hq_ne_nil : q ≠ [] := by
    intro h
    have := hq.length_eq
    rw [h] at this
    simp at this
    omega
  have h0q : (0 : Nat) ∉ q := fun h => by
    have := (hmemq 0 h).1
    omega
  have hmemL : ∀ x ∈ tourOf q, x < g.numVertices := by
    intro x hx
    rcases List.mem_cons.mp hx with rfl | hx'
    · omega
    · rcases List.mem_append.mp hx' with hxq | hx0
      · have := (hmemq x hxq).2
        omega
      · have : x = 0 := by simpa using hx0
        omega
  have hchain : (tourOf q).Chain' (· ≠ ·) := by
    show ((0 :: q) ++ [0]).Chain' (· ≠ ·)
    rw [List.chain'_append]
    refine ⟨List.Pairwise.chain' (List.nodup_cons.mpr ⟨h0q, hq_nodup⟩),
      by simp, ?_⟩
    intro x hx y hy
    have hy0 : y = 0 := by
      have := hy
      simp at this
      omega
    have hxq : x ∈ q := by
      cases q with
      | nil => exact absurd rfl hq_ne_nil
      | cons a t =>
          rw [List.getLast?_cons_cons] at hx
          obtain ⟨hne, hxeq⟩ := List.mem_getLast?_eq_getLast hx
          rw [hxeq]
          exact List.getLast_mem hne
    subst hy0
    exact fun h => h0q (h ▸ hxq)
  intro p hp
  have hp1 : p.1 ∈ tourOf q := (List.of_mem_zip hp).1
  have hp2 : p.2 ∈ tourOf q := List.mem_of_mem_tail (List.of_mem_zip hp).2
  obtain ⟨l₁, l₂, hsplit⟩ := mem_zip_tail (tourOf q) p hp
  have hsuffix : p.1 :: p.2 :: l₂ <:+ tourOf q := ⟨l₁, hsplit.symm⟩
  exact ⟨hmemL p.1 hp1, hmemL p.2 hp2,
    (List.chain'_cons.mp (hchain.suffix hsuffix)).1⟩

/-- C2 counterexample: a complete symmetric 3-vertex graph whose two candidate
tours both cost exactly `INT_MAX = 2147483647`.  Neither beats the initial
best distance, so `travelingSalesman()` returns the empty path with cost
`INT_MAX` instead of a tour of length `V+1 = 4`. -/
theorem C2_counterexample :
    isComplete (⟨3, true,
      [[0, 715827882, 715827883],
       [715827882, 0, 715827882],
       [715827883, 715827882, 0]]⟩ : Graph) = true ∧
    travelingSalesman (⟨3, true,
      [[0, 715827882, 715827883],
       [715827882, 0, 715827882],
       [715827883, 715827882, 0]]⟩ : Graph)
      = Except.ok ([], 2147483647) ∧
    ([] : List Nat).length ≠ (⟨3, true,
      [[0, 715827882, 715827883],
       [715827882, 0, 715827882],
       [715827883, 715827882, 0]]⟩ : Graph).numVertices + 1 := by decide

/-- C2 (amended): for every complete graph with at least 3 vertices whose
off-diagonal entries between valid vertices are positive (as every edge the
API inserts is), in which every candidate tour costs at most `INT_MAX` — so
the C++ `int` accumulation never overflows, witnessed by the wrapped cost
`pathCostI32` agreeing with the modeled cost on every candidate — and some
candidate tour costs strictly less than the initial best distance `INT_MAX`,
`travelingSalesman()` returns the closed tour of some candidate permutation:
it has length `V+1`, starts and ends at vertex 0, its cost is minimal over
all `(V-1)!` candidate permutations, and among equal-cost candidates the
returned one is lexicographically first. -/
theorem C2_tsp_first_lex_minimum (g : Graph)
    (hc : isComplete g = true) (hn : 3 ≤ g.numVertices)
    (hpos : ∀ i j, i < g.numVertices → j < g.numVertices → i ≠ j →
      0 < edgeVal g i j)
    (hall : ∀ p ∈ tspCandidates g, pathCost g (tourOf p) ≤ intMax)
    (hmin : ∃ p ∈ tspCandidates g, pathCost g (tourOf p) < intMax) :
    ∃ p₀ ∈ tspCandidates g,
      travelingSalesman g = Except.ok (tourOf p₀, pathCost g (tourOf p₀)) ∧
      (tourOf p₀).length = g.numVertices + 1 ∧
      (tourOf p₀).head? = some 0 ∧
      (tourOf p₀).getLast? = some 0 ∧
      (tspCandidates g).length = Nat.factorial (g.numVertices - 1) ∧
      (∀ q, List.Perm q (List.range' 1 (g.numVertices - 1)) →
        pathCost g (tourOf p₀) ≤ pathCost g (tourOf q)) ∧
      (∀ q ∈ tspCandidates g, pathCost g (tourOf q) = pathCost g (tourOf p₀) →
        p₀ = q ∨ List.Lex (· < ·) p₀ q) ∧
      (∀ q ∈ tspCandidates g,
        pathCostI32 g (tourOf q) = pathCost g (tourOf q)) := by
  have hcomp : ¬(isComplete g = false) := by rw [hc]; simp
  have hne2 : ¬(g.numVertices < 2) := by omega
  have hne2' : ¬(g.numVertices = 2) := by omega
  have heqtsp : travelingSalesman g
      = Except.ok ((tspCandidates g).foldl (tspStep g) ([], intMax)) := by
    unfold travelingSalesman
    rw [if_neg hcomp, if_neg hne2, if_neg hne2']
  obtain ⟨L₁, p₀, L₂, heqL, hfold, _, h₁, h₂⟩ :=
    foldl_tspStep_argmin g (tspCandidates g) ([], intMax) hmin
  have hmem : p₀ ∈ tspCandidates g := by
    rw [heqL]
    exact List.mem_append_right _ (List.mem_cons_self _ _)
  have hperm : List.Perm p₀ (List.range' 1 (g.numVertices - 1)) :=
    mem_tspCandidates.mp hmem
  have hplen : p₀.length = g.numVertices - 1 := by
    rw [hperm.length_eq]
    simp
  have hsorted : (tspCandidates g).Pairwise (List.Lex (· < ·)) :=
    lexPermsAux_sorted _ _ rfl (List.pairwise_lt_range' 1 (g.numVertices - 1))
  refine ⟨p₀, hmem, ?_, ?_, rfl, ?_, ?_, ?_, ?_, ?_⟩
  · rw [heqtsp, hfold]
  · show (0 :: p₀ ++ [0]).length = g.numVertices + 1
    have : (0 :: p₀ ++ [0]).length = p₀.length + 2 := by
      simp
    rw [this, hplen]
    omega
  · show (0 :: p₀ ++ [0]).getLast? = some 0
    exact List.getLast?_concat (0 :: p₀)
  · show (tspCandidates g).length = Nat.factorial (g.numVertices - 1)
    have hlen : (List.range' 1 (g.numVertices - 1)).length
        = g.numVertices - 1 := by simp
    unfold tspCandidates lexPerms
    rw [hlen]
    exact lexPermsAux_length _ _ hlen
  · intro q hq
    have hqmem : q ∈ tspCandidates g := mem_tspCandidates.mpr hq
    rw [heqL] at hqmem
    rcases List.mem_append.mp hqmem with hqL | hqR
    · exact le_of_lt (h₁ q hqL)
    · rcases List.mem_cons.mp hqR with rfl | hqL₂
      · exact le_refl _
      · exact h₂ q hqL₂
  · intro q hqmem hqcost
    rw [heqL] at hqmem hsorted
    rcases List.mem_append.mp hqmem with hqL | hqR
    · exfalso
      have hlt := h₁ q hqL
      rw [hqcost] at hlt
      exact lt_irrefl _ hlt
    · rcases List.mem_cons.mp hqR with rfl | hqL₂
      · exact Or.inl rfl
      · refine Or.inr ?_
        have hpw := (List.pairwise_append.mp hsorted).2.1
        exact (List.pairwise_cons.mp hpw).1 q hqL₂
  · intro q hqmem
    have hqperm := mem_tspCandidates.mp hqmem
    refine pathCostI32_eq_pathCost g (tourOf q) ?_ (hall q hqmem)
    intro e he
    obtain ⟨h1, h2, h3⟩ := tourOf_pairs hqperm hn e he
    exact hpos e.1 e.2 h1 h2 h3

theorem C2_tsp_first_lex_minimum_witness :
    (isComplete (⟨3, true, [[0,1,2],[1,0,3],[2,3,0]]⟩ : Graph) = true ∧
      3 ≤ (⟨3, true, [[0,1,2],[1,0,3],[2,3,0]]⟩ : Graph).numVertices ∧
      (∀ i j, i < (⟨3, true, [[0,1,2],[1,0,3],[2,3,0]]⟩ : Graph).numVertices →
        j < (⟨3, true, [[0,1,2],[1,0,3],[2,3,0]]⟩ : Graph).numVertices →
        i ≠ j →
        0 < edgeVal (⟨3, true, [[0,1,2],[1,0,3],[2,3,0]]⟩ : Graph) i j) ∧
      (∀ p ∈ tspCandidates (⟨3, true, [[0,1,2],[1,0,3],[2,3,0]]⟩ : Graph),
        pathCost (⟨3, true, [[0,1,2],[1,0,3],[2,3,0]]⟩ : Graph) (tourOf p)
          ≤ intMax) ∧
      ∃ p ∈ tspCandidates (⟨3, true, [[0,1,2],[1,0,3],[2,3,0]]⟩ : Graph),
        pathCost (⟨3, true, [[0,1,2],[1,0,3],[2,3,0]]⟩ : Graph) (tourOf p)
          < intMax) ∧
    ∃ p₀ ∈ tspCandidates (⟨3, true, [[0,1,2],[1,0,3],[2,3,0]]⟩ : Graph),
      travelingSalesman (⟨3, true, [[0,1,2],[1,0,3],[2,3,0]]⟩ : Graph)
        = Except.ok (tourOf p₀,
            pathCost (⟨3, true, [[0,1,2],[1,0,3],[2,3,0]]⟩ : Graph)
              (tourOf p₀)) := by
  refine ⟨⟨by decide, by decide,
      (by
        have h : ∀ i < (3:Nat), ∀ j < (3:Nat), i ≠ j →
            0 < edgeVal (⟨3, true, [[0,1,2],[1,0,3],[2,3,0]]⟩ : Graph) i j := by
          decide
        intro i j hi hj
        exact h i hi j hj), by decide,
    ⟨[1,2], by decide, by decide⟩⟩, ?_⟩
  obtain ⟨p₀, hmem, heq, _⟩ :=
    C2_tsp_first_lex_minimum ⟨3, true, [[0,1,2],[1,0,3],[2,3,0]]⟩
      (by decide) (by decide)
      (by
        have h : ∀ i < (3:Nat), ∀ j < (3:Nat), i ≠ j →
            0 < edgeVal (⟨3, true, [[0,1,2],[1,0,3],[2,3,0]]⟩ : Graph) i j := by
          decide
        intro i j hi hj
        exact h i hi j hj) (by decide)
      ⟨[1,2], by decide, by decide⟩
  exact ⟨p₀, hmem, heq⟩

/-! ### Fail-fast atomicity of the mutating operations -/

lemma addEdgeWeighted_err_state {g : Graph} {a b : Nat} {w : Int} {e : GErr}
    {st : Graph} (h : addEdgeWeighted g a b w = MRes.err e st) : st = g := by
  unfold addEdgeWeighted at h
  by_cases h1 : ¬(a < g.numVertices ∧ b < g.numVertices)
  · rw [if_pos h1] at h
    injection h with _ h2
    exact h2.symm
  · rw [if_neg h1] at h
    by_cases h2 : w ≤ 0
    · rw [if_pos h2] at h
      injection h with _ h3
      exact h3.symm
    · rw [if_neg h2] at h
      exact absurd h (by simp)

lemma addEdgeWeighted_ok_cond {g : Graph} {a b : Nat} {w : Int} {g₁ : Graph}
    (h : addEdgeWeighted g a b w = MRes.ok g₁) :
    (a < g.numVertices ∧ b < g.numVertices) ∧ ¬(w ≤ 0) ∧
      g₁ = setEdge g a b w := by
  unfold addEdgeWeighted at h
  by_cases h1 : ¬(a < g.numVertices ∧ b < g.numVertices)
  · rw [if_pos h1] at h
    exact absurd h (by simp)
  · rw [if_neg h1] at h
    by_cases h2 : w ≤ 0
    · rw [if_pos h2] at h
      exact absurd h (by simp)
    · rw [if_neg h2] at h
      injection h with h3
      exact ⟨not_not.mp h1, h2, h3.symm⟩

lemma setEdge_numVertices (g : Graph) (a b : Nat) (w : Int) :
    (setEdge g a b w).numVertices = g.numVertices := rfl

/-- C8: every mutating Store operation that fails (IndexError on an invalid
index, InvalidArgument on a non-positive weight) raises its error before any
mutation: the graph state carried at the moment of the error is exactly the
original graph.  For `addUndirectedEdge` in particular, the second directed
insertion can never fail after the first one succeeded. -/
theorem C8_fail_fast_atomicity (g : Graph) (a b v : Nat) (w : Int) :
    (∀ e st, removeVertex g v = MRes.err e st → st = g) ∧
    (∀ e st, addEdge g a b = MRes.err e st → st = g) ∧
    (∀ e st, addEdgeWeighted g a b w = MRes.err e st → st = g) ∧
    (∀ e st, addUndirectedEdge g a b w = MRes.err e st → st = g) ∧
    (∀ e st, removeEdge g a b = MRes.err e st → st = g) := by
  refine ⟨?_, ?_, ?_, ?_, ?_⟩
  · intro e st h
    unfold removeVertex at h
    by_cases h1 : v < g.numVertices
    · rw [if_pos h1] at h
      exact absurd h (by simp)
    · rw [if_neg h1] at h
      injection h with _ h2
      exact h2.symm
  · intro e st h
    unfold addEdge at h
    by_cases h1 : a < g.numVertices ∧ b < g.numVertices
    · rw [if_pos h1] at h
      exact absurd h (by simp)
    · rw [if_neg h1] at h
      injection h with _ h2
      exact h2.symm
  · intro e st h
    exact addEdgeWeighted_err_state h
  · intro e st h
    unfold addUndirectedEdge at h
    cases hfst : addEdgeWeighted g a b w with
    | err e1 st1 =>
        rw [hfst] at h
        injection h with _ h2
        rw [← h2]
        exact addEdgeWeighted_err_state hfst
    | ok g₁ =>
        rw [hfst] at h
        change addEdgeWeighted g₁ b a w = MRes.err e st at h
        obtain ⟨⟨ha, hb⟩, hw, hset⟩ := addEdgeWeighted_ok_cond hfst
        have hn₁ : g₁.numVertices = g.numVertices := by
          subst hset
          rfl
        exfalso
        have hok : ∃ g₂, addEdgeWeighted g₁ b a w = MRes.ok g₂ := by
          unfold addEdgeWeighted
          rw [if_neg (by rw [hn₁]; tauto), if_neg hw]
          exact ⟨_, rfl⟩
        obtain ⟨g₂, hg₂⟩ := hok
        rw [hg₂] at h
        exact absurd h (by simp)
  · intro e st h
    unfold removeEdge at h
    by_cases h1 : a < g.numVertices ∧ b < g.numVertices
    · rw [if_pos h1] at h
      exact absurd h (by simp)
    · rw [if_neg h1] at h
      injection h with _ h2
      exact h2.symm

theorem C8_fail_fast_atomicity_witness :
    removeVertex (mkGraph 2 false) 5
      = MRes.err GErr.indexError (mkGraph 2 false) ∧
    (mkGraph 2 false : Graph) = mkGraph 2 false :=
  ⟨by decide,
    (C8_fail_fast_atomicity (mkGraph 2 false) 0 0 5 1).1 GErr.indexError
      (mkGraph 2 false) (by decide)⟩
